import Mathlib

/-!
Verification of the "Stupid Simple JSON" codec (`src/JSON.cpp`,
`src/JSONElement.h`, `JSON/JSON.h`) against its natural-language
specification.

The C++ code is shallowly embedded:
* text buffers and tokens are `List Char` (a `std::string` is its character
  sequence);
* `long long` is `Int` together with explicit 64-bit range checks where the
  source's `std::stoll` can throw `std::out_of_range`;
* `long double` is modelled as an exact decimal `mantissa × 10^exp10`
  (`LongDouble`); the binary rounding and the finite range of the host type
  are not modelled, a single zero stands for both signed zeros, and two
  representations of the same real value are distinct model states (no
  claim compares decimal values across representations);
* every fallible routine returns `Except Fail _`.  A thrown `JSON::Error`
  is `Fail.err e`.  Behaviour that falls outside the `JSON::Error` contract
  — dereferencing a past-the-end `std::vector` iterator, calling through a
  null `shared_ptr`, or an uncaught `std::out_of_range` escaping
  `std::stoll` — is the distinguished outcome `Fail.crash`;
* the mutually recursive descent of `JSON::Parse` is made total with an
  explicit fuel argument (`Fail.fuelOut` marks exhaustion; the entry point
  supplies `2 * tokens.length + 2` fuel, which the development shows is
  enough on the runs it reasons about).

Definition names follow the C++ source (`Lex`, `Parse`,
`ParseObjectElement`, `FindClosingCharacter`, ...); the element tree's
`ToString` is rendered here as `ElementToString` to avoid clashing with the
core `ToString` class.
-/

namespace SSJ

/-- The double-quote character `"` (C++ `'\"'`). -/
def dq : Char := Char.ofNat 34

/-- The backslash character (C++ `'\\'`). -/
def bsl : Char := Char.ofNat 92

/-- The opening curly bracket (C++ `'{'`). -/
def lbr : Char := Char.ofNat 123

/-- The closing curly bracket (C++ `'}'`). -/
def rbr : Char := Char.ofNat 125

/-- `JSON::Error` from `JSON/JSON.h` (constructor names as in the source).
`E_NO_ERROR` is the "no failure" value written through the `pErr` slot. -/
inductive Error where
  | E_NO_ERROR
  | E_INVALID_JSON
  | E_LEXING_ERR_INVALID_VALUE
  | E_LEXING_ERR_INVALID_STRING
  | E_INVALID_JSON_KEY_STRING
  | E_INVALID_JSON_KEY_COLON
  | E_PARSE_ERR_INVALID_STRING
  | E_PARSE_ERR_UNKNOWN_ELEMENT
  | E_PARSE_ERR_INVALID_NUMBER
  | E_PARSE_ERROR_INVALID_LITERAL_CASE
  | E_PARSE_ERR_INVALID_OBJECT
  | E_PARSE_ERR_OBJECT_OPENING_BRACKET
  | E_PARSE_ERR_OBJECT_CLOSING_BRACKET
  | E_PARSE_ERR_INVALID_ARRAY
  | E_PARSE_ERR_ARRAY_OPENING_BRACKET
  | E_PARSE_ERR_ARRAY_CLOSING_BRACKET
deriving DecidableEq, Repr

/-- Outcome of a run of the C++ code.  `err e` is a thrown `JSON::Error`;
`crash` is behaviour outside that contract (end-iterator dereference, null
`shared_ptr` dereference, uncaught `std::out_of_range`); `fuelOut` is the
embedding's fuel exhaustion marker, never a behaviour of the source. -/
inductive Fail where
  | err (e : Error)
  | crash
  | fuelOut
deriving DecidableEq, Repr

/-- The exact-decimal model of the host's `long double`: the value
`mant * 10 ^ exp10`.  `std::stold` only ever produces such decimals from
the tokens it is given here, so this loses no behaviour relevant to the
source; it is kernel-computable, unlike rational arithmetic. -/
structure LongDouble where
  mant : Int
  exp10 : Int
deriving DecidableEq, Repr

/-- The element tree of `JSONElement.h`.  `key` is the member key (empty
for array items and the root).  `NumberElement`'s integer/decimal
discriminant is split into two constructors; `TYPE_UNDEFINED` never occurs
in a tree built by the parser (the constructor either sets a value or
throws) and is omitted.  The non-owning `m_pParent` back-reference is not
carried: being a child of an object/array is a structural fact here. -/
inductive JSONElement where
  | ObjectElement (key : List Char) (children : List JSONElement)
  | ArrayElement (key : List Char) (items : List JSONElement)
  | StringElement (key : List Char) (value : List Char)
  | NumberInt (key : List Char) (value : Int)
  | NumberDec (key : List Char) (value : LongDouble) (precision : Nat)
  | BoolElement (key : List Char) (value : Bool)
  | NullElement (key : List Char)

/-- The `m_Key` field common to all elements. -/
def JSONElement.key : JSONElement → List Char
  | .ObjectElement k _ => k
  | .ArrayElement k _ => k
  | .StringElement k _ => k
  | .NumberInt k _ => k
  | .NumberDec k _ _ => k
  | .BoolElement k _ => k
  | .NullElement k => k

/-- `JSONElement::IsObject`. -/
def JSONElement.IsObject : JSONElement → Bool
  | .ObjectElement _ _ => true
  | _ => false

/-- `JSONElement::FormatKey`: render `"<key>":` when the key is non-empty. -/
def FormatKey (k : List Char) : List Char :=
  if k = [] then [] else dq :: k ++ [dq, ':']

/-- The digit character of a value below 10 (the fallback is unreachable
where this is used). -/
def DigitChar : Nat → Char
  | 0 => '0'
  | 1 => '1'
  | 2 => '2'
  | 3 => '3'
  | 4 => '4'
  | 5 => '5'
  | 6 => '6'
  | 7 => '7'
  | 8 => '8'
  | 9 => '9'
  | _ => '0'

/-- The ten digit characters. -/
def digitChars : List Char := ['0', '1', '2', '3', '4', '5', '6', '7', '8', '9']

/-- Decimal digit characters of a natural number, most significant first
(helper for `std::to_string` / `printf`-style rendering); structural fuel
`f` must exceed `n`. -/
def NatDigitsAux : Nat → Nat → List Char
  | 0, _ => []
  | f + 1, n =>
    if n < 10 then [DigitChar n]
    else NatDigitsAux f (n / 10) ++ [DigitChar (n % 10)]

/-- Decimal text of a natural number. -/
def NatToChars (n : Nat) : List Char := NatDigitsAux (n + 1) n

/-- `std::to_string(long long)`: decimal text, `-` sign for negatives. -/
def IntToChars (i : Int) : List Char :=
  if i < 0 then '-' :: NatToChars i.natAbs else NatToChars i.natAbs

/-- Round `m / d` (with `d > 0`) to the nearest integer, half away from
zero: the sign of `m` times the half-up rounding of `|m| / d`. -/
def RoundHalfAway (m : Int) (d : Nat) : Int :=
  let q : Nat := (2 * m.natAbs + d) / (2 * d)
  if m < 0 then -(q : Int) else (q : Int)

/-- The integer nearest `m * 10 ^ k` (half away from zero): the rounding
`printf` applies when printing the exact value `m * 10 ^ k` scaled into
fixed-point position. -/
def ScaleRound (m : Int) (k : Int) : Int :=
  if 0 ≤ k then m * (10 : Int) ^ k.toNat
  else RoundHalfAway m (10 ^ (-k).toNat)

/-- Left-pad a digit string with zeros to width `p`. -/
def PadZeros (p : Nat) (ds : List Char) : List Char :=
  List.replicate (p - ds.length) '0' ++ ds

/-- `printf("%.*Lf", p, x)` on the exact decimal value: fixed-point text
with `p` fractional digits (`std::to_string(long double)` is this with
`p = 6`). -/
def FixedToChars (x : LongDouble) (p : Nat) : List Char :=
  let n : Int := ScaleRound x.mant (x.exp10 + p)
  let m : Nat := n.natAbs
  (if n < 0 then ['-'] else []) ++ NatToChars (m / 10 ^ p) ++
    (if p = 0 then [] else '.' :: PadZeros p (NatToChars (m % 10 ^ p)))

/-- The literal tokens. -/
def litTrue : List Char := ['t', 'r', 'u', 'e']

def litFalse : List Char := ['f', 'a', 'l', 's', 'e']

def litNull : List Char := ['n', 'u', 'l', 'l']

mutual

/-- `JSONElement::ToString` (named apart from the core `ToString` class):
key prefix followed by the variant body; `NumberElement` renders integers
as decimal text and decimals in fixed-point with the stored precision when
positive, else via `std::to_string` (6 fractional digits). -/
def ElementToString : JSONElement → List Char
  | .ObjectElement k cs => FormatKey k ++ lbr :: ChildrenToString cs ++ [rbr]
  | .ArrayElement k xs => FormatKey k ++ '[' :: ChildrenToString xs ++ [']']
  | .StringElement k v => FormatKey k ++ dq :: v ++ [dq]
  | .NumberInt k n => FormatKey k ++ IntToChars n
  | .NumberDec k q p =>
    FormatKey k ++ (if 0 < p then FixedToChars q p else FixedToChars q 6)
  | .BoolElement k b => FormatKey k ++ (if b then litTrue else litFalse)
  | .NullElement k => FormatKey k ++ litNull

/-- Children joined by `,` in insertion order (the `bFirst` loop of
`ObjectElement::ToString` / `ArrayElement::ToString`). -/
def ChildrenToString : List JSONElement → List Char
  | [] => []
  | [c] => ElementToString c
  | c :: cs => ElementToString c ++ ',' :: ChildrenToString cs

end

/-- The body of an element's rendering, without the key prefix:
`ElementToString t = FormatKey t.key ++ BodyText t` (proved below). -/
def BodyText : JSONElement → List Char
  | .ObjectElement _ cs => lbr :: ChildrenToString cs ++ [rbr]
  | .ArrayElement _ xs => '[' :: ChildrenToString xs ++ [']']
  | .StringElement _ v => dq :: v ++ [dq]
  | .NumberInt _ n => IntToChars n
  | .NumberDec _ x p => if 0 < p then FixedToChars x p else FixedToChars x 6
  | .BoolElement _ b => if b then litTrue else litFalse
  | .NullElement _ => litNull

/-- Whether an element's rendering ends in a bare-value character, so
that the lexer needs a terminating character after it. -/
def EndsBare : JSONElement → Bool
  | .NumberInt _ _ => true
  | .NumberDec _ _ _ => true
  | .BoolElement _ _ => true
  | .NullElement _ => true
  | .ObjectElement _ _ => false
  | .ArrayElement _ _ => false
  | .StringElement _ _ => false

/-! ### Lexer (`JSON::Lex` and its helpers) -/

/-- A token, as produced by the lexer: a slice of the input text. -/
abbrev Tok := List Char

/-- The whitespace characters skipped by `JSON::Lex`. -/
def wsChars : List Char := [' ', '\r', '\n', '\t']

/-- The six structural characters, each emitted as a one-character token. -/
def structuralChars : List Char := [lbr, rbr, '[', ']', ':', ',']

/-- `closingChars` of `JSON::FindClosingCharacter` — the characters that
terminate a bare value token.  Note: the colon is absent. -/
def closingChars : List Char := [lbr, rbr, '[', ']', ',', ' ', '\r', '\n', '\t']

/-- `validChars` of `JSON::IsValidNumber`. -/
def validChars : List Char :=
  ['1', '2', '3', '4', '5', '6', '7', '8', '9', '0', '+', '-', '.', 'e', 'E']

/-- `JSON::FindClosingQuotationMark`, recast on the character list that
follows the opening quote.  `prev` is the character immediately before the
current one (initially the opening quote itself).  A quote terminates the
scan only when the preceding character is not a backslash; the result is
the content before the closing quote and the text after it. -/
def FindClosingQuotationMark (prev : Char) : List Char → Option (List Char × List Char)
  | [] => none
  | c :: rest =>
    if c = dq ∧ prev ≠ bsl then some ([], rest)
    else
      match FindClosingQuotationMark c rest with
      | some (content, r) => some (c :: content, r)
      | none => none

/-- `JSON::FindClosingCharacter`, recast as a split: the characters before
the first member of `closingChars`, and the remainder starting with that
character; `none` when no such character exists before the buffer ends. -/
def FindClosingCharacter : List Char → Option (List Char × List Char)
  | [] => none
  | c :: rest =>
    if closingChars.contains c then some ([], c :: rest)
    else
      match FindClosingCharacter rest with
      | some (tok, r) => some (c :: tok, r)
      | none => none

/-- `JSON::Lex`, fuel-structural: one fuel unit per loop iteration (each
iteration consumes at least one character, so `length + 1` fuel always
suffices).  Whitespace is skipped, structural characters become
one-character tokens, quote-led text becomes a token including both
quotes, anything else becomes a bare value token ended by the next
`closingChars` character. -/
def LexF : Nat → List Char → Except Fail (List Tok)
  | 0, _ => .error .fuelOut
  | f + 1, s =>
    match s with
    | [] => .ok []
    | c :: rest =>
      if wsChars.contains c then LexF f rest
      else if structuralChars.contains c then
        match LexF f rest with
        | .ok toks => .ok ([c] :: toks)
        | .error e => .error e
      else if c = dq then
        match FindClosingQuotationMark dq rest with
        | some (content, r) =>
          match LexF f r with
          | .ok toks => .ok ((dq :: content ++ [dq]) :: toks)
          | .error e => .error e
        | none => .error (.err .E_LEXING_ERR_INVALID_STRING)
      else
        match FindClosingCharacter (c :: rest) with
        | some (tok, r) =>
          match LexF f r with
          | .ok toks => .ok (tok :: toks)
          | .error e => .error e
        | none => .error (.err .E_LEXING_ERR_INVALID_VALUE)

/-- `JSON::Lex` at its canonical fuel. -/
def Lex (s : List Char) : Except Fail (List Tok) := LexF (s.length + 1) s

/-! ### Number conversion (`std::stoll` / `std::stold` on tokens)

Lexer tokens never contain whitespace, so the leading-whitespace skip of
the C library conversions is omitted. -/

/-- Consume one optional sign; returns (negative?, rest). -/
def ReadSign : List Char → Bool × List Char
  | '-' :: rest => (true, rest)
  | '+' :: rest => (false, rest)
  | s => (false, s)

/-- Value of a (most-significant-first) digit string. -/
def DigitsVal (ds : List Char) : Nat :=
  ds.foldl (fun a c => 10 * a + (c.toNat - 48)) 0

/-- Failure modes of `std::stoll`. -/
inductive StollErr where
  | invalidArg
  | outOfRange
deriving DecidableEq, Repr

/-- `std::stoll` (base 10): longest valid prefix — optional sign then at
least one digit; no digit at all is `std::invalid_argument`; a value
outside the signed 64-bit range is `std::out_of_range`. -/
def Stoll (s : List Char) : Except StollErr Int :=
  let ps := ReadSign s
  let ds := ps.2.takeWhile Char.isDigit
  if ds = [] then .error .invalidArg
  else
    let n : Int := if ps.1 then -(DigitsVal ds : Int) else (DigitsVal ds : Int)
    if n < -(2 ^ 63) ∨ 2 ^ 63 - 1 < n then .error .outOfRange else .ok n

/-- `std::stold` on the exact decimals: longest valid prefix — optional
sign, digits with an optional `.` and fraction digits (at least one digit
overall required, else `std::invalid_argument` as `none`), then an
optional exponent part that only counts if it has at least one digit.
The parsed value `sign·d1.d2 × 10^ex` is the decimal
`sign·(d1 ++ d2) × 10^(ex - |d2|)`.  The host type's finite range and
binary rounding are not modelled. -/
def Stold (s : List Char) : Option LongDouble :=
  let ps := ReadSign s
  let d1 := ps.2.takeWhile Char.isDigit
  let r1 := ps.2.dropWhile Char.isDigit
  let d2 := if r1.head? = some '.' then r1.tail.takeWhile Char.isDigit else []
  let r2 := if r1.head? = some '.' then r1.tail.dropWhile Char.isDigit else r1
  if d1 = [] ∧ d2 = [] then none
  else
    let mant : Int := (DigitsVal (d1 ++ d2) : Int)
    let ex : Int :=
      match r2 with
      | c :: t =>
        if c = 'e' ∨ c = 'E' then
          let es := ReadSign t
          let ed := es.2.takeWhile Char.isDigit
          if ed = [] then 0
          else if es.1 then -(DigitsVal ed : Int) else (DigitsVal ed : Int)
        else 0
      | [] => 0
    some ⟨if ps.1 then -mant else mant, ex - d2.length⟩

/-- `std::string::find_last_of('.')`: index of the last `.`, if any. -/
def FindLastDot : List Char → Option Nat
  | [] => none
  | c :: rest =>
    match FindLastDot rest with
    | some i => some (i + 1)
    | none => if c = '.' then some 0 else none

/-- The `SetDecimalPrecision` computation of `JSON::ParseNumberElement`:
`length - find_last_of('.') - 1` when a dot exists, else the field keeps
its constructor default `0`. -/
def DecimalPrecisionOf (tok : Tok) : Nat :=
  match FindLastDot tok with
  | some i => tok.length - i - 1
  | none => 0

/-! ### Parser (`JSON::Parse` and the production routines)

Iterator conventions of the source are recast on lists: a routine takes
the tokens from the current position and returns the tokens after the
last token of the parsed element (the source returns an iterator to that
last token; its callers always advance by one). -/

/-- `JSON::CharCompare` (C `toupper` on ASCII). -/
def CharCompare (c1 c2 : Char) : Bool := c1 == c2 || c1.toUpper == c2.toUpper

/-- `JSON::EqualIgnoreCase` (`std::equal` over equal-sized ranges). -/
def EqualIgnoreCase (s1 s2 : List Char) : Bool :=
  s1.length == s2.length && (List.zip s1 s2).all fun p => CharCompare p.1 p.2

/-- `JSON::IsValidNumber`: every character drawn from `validChars`. -/
def IsValidNumber (tok : Tok) : Bool := tok.all fun c => validChars.contains c

/-- `JSON::IsValidDecimal`: the token contains a `.`. -/
def IsValidDecimal (tok : Tok) : Bool := tok.any fun c => c == '.'

/-- `JSON::ParseStringElement`: the token must be longer than 2 and
quote-delimited; the stored value strips the two delimiting quotes. -/
def ParseStringElement (tok : Tok) (key : List Char) : Except Fail JSONElement :=
  if 2 < tok.length ∧ tok.head? = some dq ∧ tok.getLast? = some dq then
    .ok (.StringElement key ((tok.drop 1).dropLast))
  else .error (.err .E_PARSE_ERR_INVALID_STRING)

/-- `JSON::ParseNumberElement`: a token with a `.` is converted with
`std::stold` and its precision recorded from the last `.`; otherwise
`std::stoll` converts it.  `std::invalid_argument` is caught and rethrown
as `E_PARSE_ERR_INVALID_NUMBER`; an `std::out_of_range` from `stoll` is
not caught by the source and escapes (`crash`). -/
def ParseNumberElement (tok : Tok) (key : List Char) : Except Fail JSONElement :=
  if IsValidDecimal tok then
    match Stold tok with
    | none => .error (.err .E_PARSE_ERR_INVALID_NUMBER)
    | some q => .ok (.NumberDec key q (DecimalPrecisionOf tok))
  else
    match Stoll tok with
    | .error .invalidArg => .error (.err .E_PARSE_ERR_INVALID_NUMBER)
    | .error .outOfRange => .error .crash
    | .ok n => .ok (.NumberInt key n)

/-- `JSON::ParseKey`: a quote-delimited token longer than 2 (else
`E_INVALID_JSON_KEY_STRING`) followed by a `:` token (else
`E_INVALID_JSON_KEY_COLON`); returns the unquoted key and the tokens past
the colon. -/
def ParseKey (toks : List Tok) : Except Fail (List Char × List Tok) :=
  match toks with
  | [] => .error (.err .E_INVALID_JSON_KEY_STRING)
  | tok :: rest =>
    if 2 < tok.length ∧ tok.head? = some dq ∧ tok.getLast? = some dq then
      match rest with
      | [] => .error (.err .E_INVALID_JSON_KEY_COLON)
      | c :: rest2 =>
        if c = [':'] then .ok ((tok.drop 1).dropLast, rest2)
        else .error (.err .E_INVALID_JSON_KEY_COLON)
    else .error (.err .E_INVALID_JSON_KEY_STRING)

mutual

/-- `JSON::Parse`: dispatch on the current token.  `ci` is
`m_bAcceptCaseInsensitiveLiterals`.  On an empty range the source's loop
does not run and the out-element stays null (`none`).  Bools store
`front() == 't'` (case-sensitively, whatever casing was accepted). -/
def Parse : Nat → Bool → List Tok → List Char → Except Fail (Option JSONElement × List Tok)
  | _, _, [], _ => .ok (none, [])
  | 0, _, _ :: _, _ => .error .fuelOut
  | f + 1, ci, tok :: rest, key =>
      if tok = [lbr] then
        match ParseObjectElement f ci (tok :: rest) key with
        | .error e => .error e
        | .ok (obj, r) => .ok (some obj, r)
      else if tok = ['['] then
        match ParseArrayElement f ci (tok :: rest) key with
        | .error e => .error e
        | .ok (arr, r) => .ok (some arr, r)
      else if 0 < tok.length ∧ tok.head? = some dq then
        match ParseStringElement tok key with
        | .error e => .error e
        | .ok s => .ok (some s, rest)
      else if EqualIgnoreCase tok litTrue || EqualIgnoreCase tok litFalse then
        if ci = false ∧ tok ≠ litTrue ∧ tok ≠ litFalse then
          .error (.err .E_PARSE_ERROR_INVALID_LITERAL_CASE)
        else .ok (some (.BoolElement key (tok.head? == some 't')), rest)
      else if EqualIgnoreCase tok litNull then
        if ci = false ∧ tok ≠ litNull then
          .error (.err .E_PARSE_ERROR_INVALID_LITERAL_CASE)
        else .ok (some (.NullElement key), rest)
      else if IsValidNumber tok then
        match ParseNumberElement tok key with
        | .error e => .error e
        | .ok n => .ok (some n, rest)
      else .error (.err .E_PARSE_ERR_UNKNOWN_ELEMENT)

/-- `JSON::ParseObjectElement`: requires `{` (on an empty range the
source dereferences its iterator blindly: `crash`), then runs the member
loop; the children are attached in parse order. -/
def ParseObjectElement : Nat → Bool → List Tok → List Char → Except Fail (JSONElement × List Tok)
  | _, _, [], _ => .error .crash
  | 0, _, _ :: _, _ => .error .fuelOut
  | f + 1, ci, tok :: rest, key =>
      if tok = [lbr] then
        match ObjectLoop f ci rest with
        | .error e => .error e
        | .ok (children, r) => .ok (.ObjectElement key children, r)
      else .error (.err .E_PARSE_ERR_OBJECT_OPENING_BRACKET)

/-- The `while (++it != end && *it != "}")` loop of
`JSON::ParseObjectElement`.  A `,` at member position is skipped.  A
member is a key (via `ParseKey`) and a value (via `Parse`); the token
after the value must be `,` or `}` else `E_PARSE_ERR_INVALID_OBJECT`.
When the stream is exhausted the source leaves the loop with `it == end`
and then evaluates `*it != "}"` — a past-the-end dereference (`crash`);
likewise `*next(it)` after a value that ended the stream, and
`pChild->SetParent` when `Parse` returned no element.  Consequently the
`E_PARSE_ERR_OBJECT_CLOSING_BRACKET` throw after the loop is unreachable:
the loop only stops at `}` or at the end of the stream. -/
def ObjectLoop : Nat → Bool → List Tok → Except Fail (List JSONElement × List Tok)
  | _, _, [] => .error .crash
  | 0, _, _ :: _ => .error .fuelOut
  | f + 1, ci, tok :: rest =>
      if tok = [rbr] then .ok ([], rest)
      else if tok = [','] then ObjectLoop f ci rest
      else
        match ParseKey (tok :: rest) with
        | .error e => .error e
        | .ok (childKey, rest1) =>
          match Parse f ci rest1 childKey with
          | .error e => .error e
          | .ok (none, _) => .error .crash
          | .ok (some child, rest2) =>
            match rest2 with
            | [] => .error .crash
            | ntok :: _ =>
              if ntok = [','] ∨ ntok = [rbr] then
                match ObjectLoop f ci rest2 with
                | .error e => .error e
                | .ok (children, r) => .ok (child :: children, r)
              else .error (.err .E_PARSE_ERR_INVALID_OBJECT)

/-- `JSON::ParseArrayElement`: requires `[`, then the item loop. -/
def ParseArrayElement : Nat → Bool → List Tok → List Char → Except Fail (JSONElement × List Tok)
  | _, _, [], _ => .error .crash
  | 0, _, _ :: _, _ => .error .fuelOut
  | f + 1, ci, tok :: rest, key =>
      if tok = ['['] then
        match ArrayLoop f ci rest with
        | .error e => .error e
        | .ok (items, r) => .ok (.ArrayElement key items, r)
      else .error (.err .E_PARSE_ERR_ARRAY_OPENING_BRACKET)

/-- The item loop of `JSON::ParseArrayElement`; items parse with an empty
key; the same end-of-stream dereferences as `ObjectLoop` (`crash`), and
likewise the closing-bracket throw after the loop is unreachable. -/
def ArrayLoop : Nat → Bool → List Tok → Except Fail (List JSONElement × List Tok)
  | _, _, [] => .error .crash
  | 0, _, _ :: _ => .error .fuelOut
  | f + 1, ci, tok :: rest =>
      if tok = [']'] then .ok ([], rest)
      else if tok = [','] then ArrayLoop f ci rest
      else
        match Parse f ci (tok :: rest) [] with
        | .error e => .error e
        | .ok (none, _) => .error .crash
        | .ok (some item, rest2) =>
          match rest2 with
          | [] => .error .crash
          | ntok :: _ =>
            if ntok = [','] ∨ ntok = [']'] then
              match ArrayLoop f ci rest2 with
              | .error e => .error e
              | .ok (items, r) => .ok (item :: items, r)
            else .error (.err .E_PARSE_ERR_INVALID_ARRAY)

end

/-- The `JSON::JSON` constructor body: lex, parse the whole token stream
from key `""`, require an object root (else `E_INVALID_JSON`).  The
constructor hard-codes `m_bAcceptCaseInsensitiveLiterals = true` before
parsing (the public setter runs only after construction and is dead).
`.error (.err e)` is the thrown `JSON::Error` when no `pErr` slot is
supplied. -/
def JSONConstruct (s : List Char) : Except Fail JSONElement :=
  match Lex s with
  | .error e => .error e
  | .ok tokens =>
    match Parse (2 * tokens.length + 2) true tokens [] with
    | .error e => .error e
    | .ok (some root, _) =>
      if root.IsObject then .ok root else .error (.err .E_INVALID_JSON)
    | .ok (none, _) => .error (.err .E_INVALID_JSON)

/-- The constructor as observed through a supplied `pErr` slot: the slot
is primed with `E_NO_ERROR`; a thrown `JSON::Error` is caught into the
slot and the root stays null.  `none`: the run had no defined outcome
(`crash` — nothing is written anywhere). -/
def JSONWithSlot (s : List Char) : Option (Error × Option JSONElement) :=
  match JSONConstruct s with
  | .ok root => some (.E_NO_ERROR, some root)
  | .error (.err e) => some (e, none)
  | .error .crash => none
  | .error .fuelOut => none

/-! ### Specification-side definitions

These follow the words of the specification (not the source); they exist
only to be compared with the source-derived definitions above. -/

/-- Spec side, claim C7: the bare-value scan is said to stop at "the next
whitespace or structural character — the structural characters being
`{ } [ ] : ,`".  Note this set contains the colon. -/
def specTerminatorChars : List Char :=
  [lbr, rbr, '[', ']', ':', ',', ' ', '\r', '\n', '\t']

/-- Spec side, claim C7: the token the claim says the scanner emits from
the start of a bare value: everything before the first terminator. -/
def SpecBareToken (s : List Char) : List Char :=
  s.takeWhile fun c => !specTerminatorChars.contains c

/-- The characters after the last `.` of a token (empty when there is no
dot): an independent formulation used to characterise the precision the
source records. -/
def CharsAfterLastDot (tok : List Char) : List Char :=
  (tok.reverse.takeWhile fun c => c ≠ '.').reverse

/-- Spec side, claim C4: "the count of digits that follow the last `.`"
— counting digit characters only. -/
def SpecDigitsAfterLastDot (tok : List Char) : Nat :=
  ((CharsAfterLastDot tok).filter Char.isDigit).length

/-- The prefix of a bare-value scan, formulated with `takeWhile` (the
correspondence with the source's `FindClosingCharacter` is proved below). -/
def BareTokenScan (s : List Char) : List Char :=
  s.takeWhile fun c => !closingChars.contains c

/-- The remainder of a bare-value scan, starting at the terminator. -/
def BareTokenRest (s : List Char) : List Char :=
  s.dropWhile fun c => !closingChars.contains c

/-! ### Derived predicates and canonical forms used by the theorems -/

/-- String-content well-formedness, tracking the preceding character
(initially the opening quote): every quote inside is preceded by a
backslash, and the content does not end in a backslash.  Exactly the
contents on which the lexer's quote scan closes at the appended quote. -/
def ContentOk (prev : Char) : List Char → Bool
  | [] => prev != bsl
  | c :: rest => (if c = dq then prev == bsl else true) && ContentOk c rest

/-- Property of every lexer token: if it starts with a quote it is a full
quote-delimited token with well-formed content. -/
def QuoteTokOk (tok : Tok) : Prop :=
  tok.head? = some dq → ∃ v, tok = dq :: (v ++ [dq]) ∧ ContentOk dq v = true

mutual

/-- Well-formedness of a parsed element, as established by the parser:
string values are non-empty with re-lexable content, integers fit the
64-bit range they were converted through, object members carry non-empty
re-lexable keys, array items carry empty keys. -/
def WFElement : JSONElement → Bool
  | .ObjectElement _ cs => WFMembers cs
  | .ArrayElement _ xs => WFItems xs
  | .StringElement _ v => !v.isEmpty && ContentOk dq v
  | .NumberInt _ n => decide (-(2 ^ 63) ≤ n) && decide (n ≤ 2 ^ 63 - 1)
  | .NumberDec _ _ _ => true
  | .BoolElement _ _ => true
  | .NullElement _ => true

/-- Well-formedness of an object's member list. -/
def WFMembers : List JSONElement → Bool
  | [] => true
  | c :: cs => !c.key.isEmpty && ContentOk dq c.key && WFElement c && WFMembers cs

/-- Well-formedness of an array's item list. -/
def WFItems : List JSONElement → Bool
  | [] => true
  | x :: xs => x.key.isEmpty && WFElement x && WFItems xs

end

mutual

/-- Claim C8's invariant: a key is non-empty exactly on elements that are
direct children of an object (`isMember`); array items and the root have
empty keys. -/
def KeyInvariant (isMember : Bool) : JSONElement → Bool
  | .ObjectElement k cs =>
    (if isMember then !k.isEmpty else k.isEmpty) && KeyInvariantList true cs
  | .ArrayElement k xs =>
    (if isMember then !k.isEmpty else k.isEmpty) && KeyInvariantList false xs
  | .StringElement k _ => if isMember then !k.isEmpty else k.isEmpty
  | .NumberInt k _ => if isMember then !k.isEmpty else k.isEmpty
  | .NumberDec k _ _ => if isMember then !k.isEmpty else k.isEmpty
  | .BoolElement k _ => if isMember then !k.isEmpty else k.isEmpty
  | .NullElement k => if isMember then !k.isEmpty else k.isEmpty

/-- `KeyInvariant` over a child list. -/
def KeyInvariantList (isMember : Bool) : List JSONElement → Bool
  | [] => true
  | c :: cs => KeyInvariant isMember c && KeyInvariantList isMember cs

end

mutual

/-- Claim C10's consequence predicate: no string value is empty and no
object member has an empty key, anywhere in the tree. -/
def NoEmptyPieces : JSONElement → Bool
  | .ObjectElement _ cs => NoEmptyPiecesMembers cs
  | .ArrayElement _ xs => NoEmptyPiecesItems xs
  | .StringElement _ v => !v.isEmpty
  | .NumberInt _ _ => true
  | .NumberDec _ _ _ => true
  | .BoolElement _ _ => true
  | .NullElement _ => true

/-- `NoEmptyPieces` over object members (keys must be non-empty). -/
def NoEmptyPiecesMembers : List JSONElement → Bool
  | [] => true
  | c :: cs => !c.key.isEmpty && NoEmptyPieces c && NoEmptyPiecesMembers cs

/-- `NoEmptyPieces` over array items. -/
def NoEmptyPiecesItems : List JSONElement → Bool
  | [] => true
  | x :: xs => NoEmptyPieces x && NoEmptyPiecesItems xs

end

mutual

/-- The token list the lexer recovers from an element's serialized body
(the key prefix of object members is contributed by `MembersToks`). -/
def BodyToks : JSONElement → List Tok
  | .ObjectElement _ cs => [lbr] :: (MembersToks cs ++ [[rbr]])
  | .ArrayElement _ xs => ['['] :: (ItemsToks xs ++ [[']']])
  | .StringElement _ v => [dq :: v ++ [dq]]
  | .NumberInt _ n => [IntToChars n]
  | .NumberDec _ x p => [if 0 < p then FixedToChars x p else FixedToChars x 6]
  | .BoolElement _ b => [if b then litTrue else litFalse]
  | .NullElement _ => [litNull]

/-- Canonical tokens of a serialized member list: quoted key, colon, body,
separated by commas. -/
def MembersToks : List JSONElement → List Tok
  | [] => []
  | [c] => (dq :: c.key ++ [dq]) :: [':'] :: BodyToks c
  | c :: cs => (dq :: c.key ++ [dq]) :: [':'] :: (BodyToks c ++ [','] :: MembersToks cs)

/-- Canonical tokens of a serialized item list. -/
def ItemsToks : List JSONElement → List Tok
  | [] => []
  | [x] => BodyToks x
  | x :: xs => BodyToks x ++ [','] :: ItemsToks xs

end

mutual

/-- The tree obtained by re-parsing a serialized tree: identical except
that every decimal is replaced by the exact decimal the fixed-point
rendering denotes (precision 0 decimals re-read at `std::to_string`'s 6
fractional digits). -/
def NormalizeElement : JSONElement → JSONElement
  | .ObjectElement k cs => .ObjectElement k (NormalizeList cs)
  | .ArrayElement k xs => .ArrayElement k (NormalizeList xs)
  | .StringElement k v => .StringElement k v
  | .NumberInt k n => .NumberInt k n
  | .NumberDec k x p =>
    if 0 < p then .NumberDec k ⟨ScaleRound x.mant (x.exp10 + p), -(p : Int)⟩ p
    else .NumberDec k ⟨ScaleRound x.mant (x.exp10 + 6), -(6 : Int)⟩ 6
  | .BoolElement k b => .BoolElement k b
  | .NullElement k => .NullElement k

/-- `NormalizeElement` over a child list. -/
def NormalizeList : List JSONElement → List JSONElement
  | [] => []
  | c :: cs => NormalizeElement c :: NormalizeList cs

end

/-! ## Theorems -/

/-- C2: the claim says that with case-insensitive literal matching enabled
(the default), `{"a":True}` parses to a Bool whose stored value is `true`.
The parse does succeed, but `BoolElement::SetBoolean(it->front() == 't')`
compares the first character case-sensitively, so the accepted literal
`True` (front `'T'`) stores the value `false`: the code contradicts the
meaning its own case-insensitive acceptance assigns to the literal. -/
theorem C2_true_literal_stores_false :
    JSONConstruct ("\x7b\"a\":True\x7d".toList) =
      .ok (.ObjectElement [] [.BoolElement ['a'] false]) := rfl

/-- C6: the claim says every `{`-led token sequence lacking its `}` raises
the object-closing-bracket failure.  Instead, the member loop leaves the
exhausted stream with `it == end` and the source then evaluates `*it` /
`*next(it)` — a past-the-end dereference (modelled `crash`): for the lone
token `{`, for the truncated member sequence of `{"a":1`, and for the
full pipeline on `{` and on `{"a":1 ` (whose bare `1` lexes thanks to the
trailing space).  `E_PARSE_ERR_OBJECT_CLOSING_BRACKET` is never reached
on these runs. -/
theorem C6_truncated_object_dereferences_end :
    ParseObjectElement 9 true [[lbr]] [] = .error .crash
    ∧ ParseObjectElement 9 true [[lbr], [dq, 'a', dq], [':'], ['1']] [] = .error .crash
    ∧ JSONConstruct [lbr] = .error .crash
    ∧ JSONConstruct ("\x7b\"a\":1 ".toList) = .error .crash :=
  ⟨rfl, rfl, rfl, rfl⟩

/-- C9: a `,` found at member/item position is skipped by both loops, so
leading and consecutive commas are accepted: `{,"a":1}` parses, `[1,,2]`
parses (at the array production; as a whole document its root would be
rejected for a different reason), and `{,}` parses to an empty object. -/
theorem C9_commas_skipped_at_member_position :
    (∀ f ci rest, ObjectLoop (f + 1) ci ([','] :: rest) = ObjectLoop f ci rest)
    ∧ (∀ f ci rest, ArrayLoop (f + 1) ci ([','] :: rest) = ArrayLoop f ci rest)
    ∧ JSONConstruct ("\x7b,\"a\":1\x7d".toList) =
        .ok (.ObjectElement [] [.NumberInt ['a'] 1])
    ∧ Parse 9 true [['['], ['1'], [','], [','], ['2'], [']']] [] =
        .ok (some (.ArrayElement [] [.NumberInt [] 1, .NumberInt [] 2]), [])
    ∧ JSONConstruct ("\x7b,\x7d".toList) = .ok (.ObjectElement [] []) := by
  refine ⟨fun f ci rest => ?_, fun f ci rest => ?_, rfl, rfl, rfl⟩
  · simp [ObjectLoop, dq, bsl, lbr, rbr]
  · simp [ArrayLoop, dq, bsl, lbr, rbr]

/-- C5: a successful parse whose top-level element is not an Object makes
document construction fail with `E_INVALID_JSON`; any thrown error is
delivered through a supplied slot with no usable root, and is the
construction's failure value when no slot is supplied; `[1,2,3]` is the
claim's instance. -/
theorem C5_root_must_be_object_and_error_delivery :
    (∀ s toks e rest, Lex s = .ok toks →
        Parse (2 * toks.length + 2) true toks [] = .ok (some e, rest) →
        e.IsObject = false →
        JSONConstruct s = .error (.err .E_INVALID_JSON))
    ∧ (∀ s e, JSONConstruct s = .error (.err e) → JSONWithSlot s = some (e, none))
    ∧ JSONConstruct ("[1,2,3]".toList) = .error (.err .E_INVALID_JSON)
    ∧ JSONWithSlot ("[1,2,3]".toList) = some (.E_INVALID_JSON, none) := by
  refine ⟨fun s toks e rest hlex hparse hobj => ?_, fun s e h => ?_, rfl, rfl⟩
  · unfold JSONConstruct
    simp only [hlex]
    simp only [hparse, hobj]
    simp
  · unfold JSONWithSlot
    rw [h]

/-- Every character admitted by `IsValidNumber` fails the case-insensitive
comparison against the initials of `true`/`false`/`null` and is none of
the dispatch-relevant specials. -/
theorem validChars_head_facts (c : Char) (hc : validChars.contains c = true) :
    CharCompare c 't' = false ∧ CharCompare c 'f' = false ∧ CharCompare c 'n' = false ∧
      c ≠ dq ∧ c ≠ lbr ∧ c ≠ '[' := by
  simp only [validChars, List.contains_cons, List.contains_nil, Bool.or_eq_true,
    beq_iff_eq] at hc
  rcases hc with rfl | rfl | rfl | rfl | rfl | rfl | rfl | rfl | rfl | rfl | rfl | rfl |
    rfl | rfl | rfl | h
  · decide
  · decide
  · decide
  · decide
  · decide
  · decide
  · decide
  · decide
  · decide
  · decide
  · decide
  · decide
  · decide
  · decide
  · decide
  · exact absurd h (by decide)

/-- A case-insensitive comparison whose first characters already differ is
false, whatever the lengths. -/
theorem EqualIgnoreCase_head_false {c d : Char} (h : CharCompare c d = false)
    (s t : List Char) : EqualIgnoreCase (c :: s) (d :: t) = false := by
  simp [EqualIgnoreCase, h]

/-- C3 (amended): a numeral token without a `.` goes through
`std::stoll`, which is 64-bit signed *prefix* parsing: the invalid-number
failure is raised exactly when no initial integer prefix exists
(`std::invalid_argument`); an exponent-bearing numeral like `1e10`
has the prefix `1` and therefore converts successfully to the integer 1
instead of failing. -/
theorem C3_no_dot_numerals_use_prefix_stoll :
    (∀ f ci tok rest key, IsValidNumber tok = true → IsValidDecimal tok = false →
        Stoll tok = .error .invalidArg →
        Parse (f + 1) ci (tok :: rest) key = .error (.err .E_PARSE_ERR_INVALID_NUMBER))
    ∧ Stoll ("1e10".toList) = .ok 1
    ∧ JSONConstruct ("\x7b\"a\":1e10\x7d".toList) =
        .ok (.ObjectElement [] [.NumberInt ['a'] 1]) := by
  refine ⟨fun f ci tok rest key hnum hdec hstoll => ?_, rfl, rfl⟩
  match tok with
  | [] =>
    simp only [Parse, ParseNumberElement]
    norm_num [EqualIgnoreCase, IsValidNumber, IsValidDecimal, Stoll, ReadSign,
      litTrue, litFalse, litNull, List.takeWhile]
  | c :: t =>
    have hall := hnum
    simp only [IsValidNumber, List.all_cons, Bool.and_eq_true] at hall
    obtain ⟨hc, -⟩ := hall
    obtain ⟨ht, hf, hn, hdq, hlbr, hsq⟩ := validChars_head_facts c hc
    have h1 : ¬(c :: t = [lbr]) := by intro h; cases h; exact hlbr rfl
    have h2 : ¬(c :: t = ['[']) := by intro h; cases h; exact hsq rfl
    have h3 : ¬(0 < (c :: t).length ∧ (c :: t).head? = some dq) := by
      rintro ⟨-, hh⟩
      exact hdq (by simpa using hh)
    have h4 : EqualIgnoreCase (c :: t) litTrue = false := EqualIgnoreCase_head_false ht _ _
    have h5 : EqualIgnoreCase (c :: t) litFalse = false := EqualIgnoreCase_head_false hf _ _
    have h6 : EqualIgnoreCase (c :: t) litNull = false := EqualIgnoreCase_head_false hn _ _
    simp only [Parse, if_neg h1, if_neg h2, if_neg h3, h4, h5, h6, Bool.or_self,
      Bool.false_eq_true, if_false, hnum, if_true, ParseNumberElement, hdec, hstoll]

/-- C3 counterexample: the claim says an exponent-bearing numeral without
a `.` such as `1e10` fails integer conversion and produces the
invalid-number error; in fact `std::stoll` parses the longest integer
prefix, `stoll("1e10")` is `1`, and the document `{"a":1e10}` parses
successfully to the integer 1 instead of failing. -/
theorem C3_counterexample_1e10_parses :
    Stoll ("1e10".toList) = .ok 1
    ∧ JSONConstruct ("\x7b\"a\":1e10\x7d".toList) =
        .ok (.ObjectElement [] [.NumberInt ['a'] 1])
    ∧ .ok (.ObjectElement [] [.NumberInt ['a'] 1]) ≠
        (.error (.err .E_PARSE_ERR_INVALID_NUMBER) : Except Fail JSONElement) :=
  ⟨rfl, rfl, by simp⟩

/-- Witness for `C3_no_dot_numerals_use_prefix_stoll`: the token `+-e`
passes the character-set check, has no dot, has no integer prefix, and the
dispatcher raises the invalid-number failure on it. -/
theorem C3_witness :
    Parse 1 true [['+', '-', 'e']] ['a'] = .error (.err .E_PARSE_ERR_INVALID_NUMBER) :=
  C3_no_dot_numerals_use_prefix_stoll.1 0 true ['+', '-', 'e'] [] ['a']
    (by decide) (by decide) rfl

/-- Witness for `C5_root_must_be_object_and_error_delivery` at the claim's
own instance `[1,2,3]`. -/
theorem C5_witness :
    JSONConstruct ("[1,2,3]".toList) = .error (.err .E_INVALID_JSON)
    ∧ JSONWithSlot ("[1,2,3]".toList) = some (.E_INVALID_JSON, none) := by
  have h1 := C5_root_must_be_object_and_error_delivery.1 ("[1,2,3]".toList)
    [['['], ['1'], [','], ['2'], [','], ['3'], [']']]
    (.ArrayElement [] [.NumberInt [] 1, .NumberInt [] 2, .NumberInt [] 3]) []
    rfl rfl rfl
  exact ⟨h1, C5_root_must_be_object_and_error_delivery.2.1 _ _ h1⟩

/-- A list without a dot yields no `find_last_of` position. -/
theorem FindLastDot_eq_none {B : List Char} (hB : '.' ∉ B) : FindLastDot B = none := by
  induction B with
  | nil => rfl
  | cons c t ih =>
    have hc : c ≠ '.' := fun h => hB (by simp [h])
    have ht : '.' ∉ t := fun h => hB (List.mem_cons_of_mem _ h)
    simp [FindLastDot, ih ht, hc]

/-- `find_last_of('.')` finds the last dot: at index `|A|` in `A ++ '.' :: B`
when `B` has no dot. -/
theorem FindLastDot_append {B : List Char} (A : List Char) (hB : '.' ∉ B) :
    FindLastDot (A ++ '.' :: B) = some A.length := by
  induction A with
  | nil => simp [FindLastDot, FindLastDot_eq_none hB]
  | cons c t ih => simp [FindLastDot, ih]

/-- `takeWhile` passes over a prefix it fully satisfies. -/
theorem takeWhile_all_append (p : Char → Bool) {l1 : List Char} (l2 : List Char)
    (h : ∀ c ∈ l1, p c = true) :
    (l1 ++ l2).takeWhile p = l1 ++ l2.takeWhile p := by
  induction l1 with
  | nil => rfl
  | cons c t ih =>
    simp only [List.cons_append, List.takeWhile_cons, h c (by simp)]
    rw [ih fun c hc => h c (by simp [hc])]
    simp

/-- The characters after the last dot of `A ++ '.' :: B` are `B` when `B`
has no dot. -/
theorem CharsAfterLastDot_append {B : List Char} (A : List Char) (hB : '.' ∉ B) :
    CharsAfterLastDot (A ++ '.' :: B) = B := by
  unfold CharsAfterLastDot
  rw [List.reverse_append, List.reverse_cons, List.append_assoc]
  rw [takeWhile_all_append _ _ (fun c hc => by
    simp only [List.mem_reverse] at hc
    simp [decide_eq_true_eq]
    exact fun h => hB (h ▸ hc))]
  simp

/-- Any list containing a dot splits at its last dot. -/
theorem exists_last_dot_split {tok : List Char} (h : '.' ∈ tok) :
    ∃ A B, tok = A ++ '.' :: B ∧ '.' ∉ B := by
  induction tok with
  | nil => cases h
  | cons c t ih =>
    by_cases ht : '.' ∈ t
    · obtain ⟨A, B, rfl, hB⟩ := ih ht
      exact ⟨c :: A, B, rfl, hB⟩
    · have hc : c = '.' := by
        rcases List.mem_cons.mp h with h | h
        · exact h.symm
        · exact absurd h ht
      exact ⟨[], t, by simp [hc], ht⟩

/-- The precision the source records — `length - find_last_of('.') - 1` —
is the number of characters after the last dot. -/
theorem DecimalPrecisionOf_eq_charsAfter {tok : List Char} (h : '.' ∈ tok) :
    DecimalPrecisionOf tok = (CharsAfterLastDot tok).length := by
  obtain ⟨A, B, rfl, hB⟩ := exists_last_dot_split h
  rw [DecimalPrecisionOf, FindLastDot_append A hB, CharsAfterLastDot_append A hB]
  simp

/-- Digit characters below ten: the character is a digit and its code is
`48 + d`. -/
theorem DigitChar_spec {d : Nat} (h : d < 10) :
    (DigitChar d).isDigit = true ∧ (DigitChar d).toNat = 48 + d := by
  interval_cases d
  all_goals exact ⟨by decide, by decide⟩

/-- Every character `NatDigitsAux` emits is a digit. -/
theorem NatDigitsAux_digits : ∀ f n, n < f → ∀ c ∈ NatDigitsAux f n, c.isDigit = true := by
  intro f
  induction f with
  | zero => intro n hn; omega
  | succ f ih =>
    intro n hn c hc
    by_cases h10 : n < 10
    · simp only [NatDigitsAux, if_pos h10, List.mem_singleton] at hc
      exact hc ▸ (DigitChar_spec h10).1
    · simp only [NatDigitsAux, if_neg h10, List.mem_append, List.mem_singleton] at hc
      rcases hc with hc | hc
      · exact ih (n / 10) (by omega) c hc
      · exact hc ▸ (DigitChar_spec (Nat.mod_lt _ (by omega))).1

/-- Every character of a rendered natural number is a digit. -/
theorem NatToChars_digits (n : Nat) : ∀ c ∈ NatToChars n, c.isDigit = true :=
  NatDigitsAux_digits (n + 1) n (Nat.lt_succ_self n)

/-- Length bound for rendered naturals: below `10^k` means at most `k`
digits (`k > 0`). -/
theorem NatDigitsAux_length :
    ∀ f n k, n < f → n < 10 ^ k → 0 < k → (NatDigitsAux f n).length ≤ k := by
  intro f
  induction f with
  | zero => intro n k hn; omega
  | succ f ih =>
    intro n k hn hk hk0
    by_cases h10 : n < 10
    · simp [NatDigitsAux, if_pos h10]
      omega
    · have hk2 : 2 ≤ k := by
        by_contra hlt
        interval_cases k
        omega
      simp only [NatDigitsAux, if_neg h10, List.length_append, List.length_singleton]
      have hdiv : n / 10 < 10 ^ (k - 1) := by
        have : n < 10 ^ k := hk
        have hpow : 10 ^ k = 10 ^ (k - 1) * 10 := by
          rw [← pow_succ]
          congr 1
          omega
        omega
      have := ih (n / 10) (k - 1) (by omega) hdiv (by omega)
      omega

/-- Length bound for `NatToChars`. -/
theorem NatToChars_length_le {n k : Nat} (h : n < 10 ^ k) (hk : 0 < k) :
    (NatToChars n).length ≤ k :=
  NatDigitsAux_length (n + 1) n k (Nat.lt_succ_self n) h hk

/-- Padding a short digit string to width `p` gives length exactly `p`. -/
theorem PadZeros_length {p : Nat} {ds : List Char} (h : ds.length ≤ p) :
    (PadZeros p ds).length = p := by
  simp [PadZeros]
  omega

/-- Characters of a padded digit string are digits when the digits are. -/
theorem PadZeros_digits {p : Nat} {ds : List Char} (h : ∀ c ∈ ds, c.isDigit = true) :
    ∀ c ∈ PadZeros p ds, c.isDigit = true := by
  intro c hc
  rcases List.mem_append.mp hc with hc | hc
  · rw [List.eq_of_mem_replicate hc]
    decide
  · exact h c hc

/-- A digit character is not a dot. -/
theorem isDigit_ne_dot {c : Char} (h : c.isDigit = true) : c ≠ '.' := by
  intro h2
  subst h2
  exact absurd h (by decide)

/-- C4 counterexample: the claim reads the recorded precision as "the
count of digits that follow the last `.`".  For the decimal numeral
`1.5e2` the digits after the last dot are `5` and `2` — two of them — but
the source records `length - pos - 1 = 3` (it counts the `e` as well),
and accordingly serializes `150.000` with three fractional digits. -/
theorem C4_counterexample_precision_counts_all_chars :
    JSONConstruct ("\x7b\"a\":1.5e2\x7d".toList) =
      .ok (.ObjectElement [] [.NumberDec ['a'] ⟨15, 1⟩ 3])
    ∧ SpecDigitsAfterLastDot ("1.5e2".toList) = 2
    ∧ (JSONConstruct ("\x7b\"a\":1.5e2\x7d".toList)).map ElementToString =
        .ok ("\x7b\"a\":150.000\x7d".toList)
    ∧ (3 : Nat) ≠ 2 :=
  ⟨rfl, rfl, rfl, by decide⟩

/-- C4 (amended): the Number production records as precision the count of
*characters* following the last `.` of the token (digits, signs or
exponent marks alike); a decimal with recorded precision `p > 0`
serializes in fixed-point with exactly `p` fractional characters, all of
them digits; `{"a":3.1400}` parses with precision 4 and serializes back
to the identical text. -/
theorem C4_precision_is_chars_after_last_dot :
    (∀ tok key x p, ParseNumberElement tok key = .ok (.NumberDec key x p) →
        p = (CharsAfterLastDot tok).length)
    ∧ (∀ x p, 0 < p →
        (CharsAfterLastDot (FixedToChars x p)).length = p
        ∧ (∀ c ∈ CharsAfterLastDot (FixedToChars x p), c.isDigit = true)
        ∧ IsValidDecimal (FixedToChars x p) = true)
    ∧ JSONConstruct ("\x7b\"a\":3.1400\x7d".toList) =
        .ok (.ObjectElement [] [.NumberDec ['a'] ⟨31400, -4⟩ 4])
    ∧ (JSONConstruct ("\x7b\"a\":3.1400\x7d".toList)).map ElementToString =
        .ok ("\x7b\"a\":3.1400\x7d".toList) := by
  refine ⟨fun tok key x p hp => ?_, fun x p hp => ?_, rfl, rfl⟩
  · unfold ParseNumberElement at hp
    by_cases hd : IsValidDecimal tok
    · rw [if_pos hd] at hp
      cases hst : Stold tok with
      | none => rw [hst] at hp; cases hp
      | some q =>
        rw [hst] at hp
        injection hp with hp
        injection hp with h1 h2 h3
        have hdot : '.' ∈ tok := by
          simp only [IsValidDecimal, List.any_eq_true, beq_iff_eq] at hd
          obtain ⟨c, hc, rfl⟩ := hd
          exact hc
        rw [← h3, DecimalPrecisionOf_eq_charsAfter hdot]
    · rw [if_neg hd] at hp
      cases hst : Stoll tok with
      | ok n => rw [hst] at hp; cases hp
      | error e =>
        cases e with
        | invalidArg => rw [hst] at hp; cases hp
        | outOfRange => rw [hst] at hp; cases hp
  · have hpz : p ≠ 0 := by omega
    have hmod : (ScaleRound x.mant (x.exp10 + p)).natAbs % 10 ^ p < 10 ^ p :=
      Nat.mod_lt _ (Nat.pos_pow_of_pos p (by omega))
    have hlen : (NatToChars ((ScaleRound x.mant (x.exp10 + p)).natAbs % 10 ^ p)).length ≤ p :=
      NatToChars_length_le hmod hp
    have hdig : ∀ c ∈ PadZeros p (NatToChars ((ScaleRound x.mant (x.exp10 + p)).natAbs % 10 ^ p)),
        c.isDigit = true :=
      PadZeros_digits (NatToChars_digits _)
    have hnodot : '.' ∉ PadZeros p (NatToChars ((ScaleRound x.mant (x.exp10 + p)).natAbs % 10 ^ p)) := by
      intro hmem
      exact isDigit_ne_dot (hdig _ hmem) rfl
    have hsplit : FixedToChars x p =
        ((if ScaleRound x.mant (x.exp10 + p) < 0 then ['-'] else []) ++
          NatToChars ((ScaleRound x.mant (x.exp10 + p)).natAbs / 10 ^ p)) ++
          '.' :: PadZeros p (NatToChars ((ScaleRound x.mant (x.exp10 + p)).natAbs % 10 ^ p)) := by
      simp only [FixedToChars, if_neg hpz, List.append_assoc]
    rw [hsplit, CharsAfterLastDot_append _ hnodot]
    refine ⟨PadZeros_length hlen, hdig, ?_⟩
    simp [IsValidDecimal, List.any_eq_true]

/-- Witness for `C4_precision_is_chars_after_last_dot`: the production on
the token `3.1400` records precision 4 — the four characters after the
dot — and a precision-2 rendering has exactly two fractional digits. -/
theorem C4_witness :
    (4 : Nat) = (CharsAfterLastDot ("3.1400".toList)).length
    ∧ (CharsAfterLastDot (FixedToChars ⟨1, 0⟩ 2)).length = 2 :=
  by
  constructor
  · exact C4_precision_is_chars_after_last_dot.1 ("3.1400".toList) ['a'] ⟨31400, -4⟩ 4 (by rfl)
  · exact (C4_precision_is_chars_after_last_dot.2.1 ⟨1, 0⟩ 2 (by decide)).1

/-- C7 counterexample: the claim's terminator set includes the colon, so
on the input `a:1,` the claimed scan from position 0 stops at the `:` and
emits `a`; the lexer's `FindClosingCharacter` set (`{}[], \r\n\t`) has no
colon, so the emitted token is `a:1`. -/
theorem C7_counterexample_colon_does_not_terminate :
    Lex ("a:1,".toList) = .ok [['a', ':', '1'], [',']]
    ∧ SpecBareToken ("a:1,".toList) = ['a']
    ∧ (['a', ':', '1'] : List Char) ≠ ['a'] :=
  ⟨rfl, rfl, by decide⟩

/-- `FindClosingCharacter` splits its input at the first character of
`closingChars`: the prefix before it and the remainder from it; `none`
when no such character exists. -/
theorem FindClosingCharacter_eq (s : List Char) :
    FindClosingCharacter s =
      if BareTokenRest s = [] then none
      else some (BareTokenScan s, BareTokenRest s) := by
  induction s with
  | nil => rfl
  | cons c rest ih =>
    cases hc : closingChars.contains c
    · have hscan : BareTokenScan (c :: rest) = c :: BareTokenScan rest := by
        unfold BareTokenScan
        rw [List.takeWhile_cons, hc]
        rfl
      have hrest : BareTokenRest (c :: rest) = BareTokenRest rest := by
        unfold BareTokenRest
        rw [List.dropWhile_cons, hc]
        rfl
      have hl : FindClosingCharacter (c :: rest) =
          match FindClosingCharacter rest with
          | some (tok, r) => some (c :: tok, r)
          | none => none := by
        conv_lhs => rw [FindClosingCharacter]
        rw [hc]
        rfl
      rw [hl, ih, hscan, hrest]
      by_cases hr : BareTokenRest rest = []
      · rw [if_pos hr, if_pos hr]
      · rw [if_neg hr, if_neg hr]
    · have h1 : FindClosingCharacter (c :: rest) = some ([], c :: rest) := by
        conv_lhs => rw [FindClosingCharacter]
        rw [hc]
        rfl
      have hscan : BareTokenScan (c :: rest) = [] := by
        unfold BareTokenScan
        rw [List.takeWhile_cons, hc]
        rfl
      have hrest : BareTokenRest (c :: rest) = c :: rest := by
        unfold BareTokenRest
        rw [List.dropWhile_cons, hc]
        rfl
      rw [hscan, hrest, h1, if_neg (by simp)]

/-- C7 (amended): a bare-value scan beginning at a character that is not
whitespace, not structural and not a quote stops at the next whitespace
or one of `{ } [ ] ,` — the colon is *not* a terminator and is absorbed
into the token — emitting the characters before the terminator; when no
terminator exists before the buffer ends, lexing fails with the
invalid-value error. -/
theorem C7_bare_value_scan_stops_at_closing_chars :
    (∀ s, FindClosingCharacter s =
        if BareTokenRest s = [] then none
        else some (BareTokenScan s, BareTokenRest s))
    ∧ (∀ f c rest, wsChars.contains c = false → structuralChars.contains c = false →
        c ≠ dq →
        LexF (f + 1) (c :: rest) =
          if BareTokenRest (c :: rest) = [] then .error (.err .E_LEXING_ERR_INVALID_VALUE)
          else
            match LexF f (BareTokenRest (c :: rest)) with
            | .ok toks => .ok (BareTokenScan (c :: rest) :: toks)
            | .error e => .error e) := by
  refine ⟨FindClosingCharacter_eq, fun f c rest hws hst hdq => ?_⟩
  simp only [LexF, hws, hst, Bool.false_eq_true, if_false, if_neg hdq,
    FindClosingCharacter_eq (c :: rest)]
  by_cases hr : BareTokenRest (c :: rest) = []
  · simp [hr]
  · simp [hr]

/-- Witness for `C7_bare_value_scan_stops_at_closing_chars`: the scan
from `a:1,` runs past the colon and stops at the comma. -/
theorem C7_witness :
    LexF 5 ("a:1,".toList) =
      (if BareTokenRest ("a:1,".toList) = [] then .error (.err .E_LEXING_ERR_INVALID_VALUE)
       else
         match LexF 4 (BareTokenRest ("a:1,".toList)) with
         | .ok toks => .ok (BareTokenScan ("a:1,".toList) :: toks)
         | .error e => .error e) :=
  C7_bare_value_scan_stops_at_closing_chars.2 4 'a' (":1,".toList)
    (by decide) (by decide) (by decide)

/-- A successful quote scan yields well-formed content, and the input is
the content, the closing quote, then the rest. -/
theorem FindClosingQuotationMark_content :
    ∀ {l : List Char} {prev content r},
      FindClosingQuotationMark prev l = some (content, r) →
      ContentOk prev content = true ∧ l = content ++ dq :: r := by
  intro l
  induction l with
  | nil => intro prev content r h; cases h
  | cons c rest ih =>
    intro prev content r h
    by_cases hcond : c = dq ∧ prev ≠ bsl
    · rw [FindClosingQuotationMark, if_pos hcond] at h
      injection h with h
      injection h with h1 h2
      subst h1
      subst h2
      simp [ContentOk, hcond.1, bne_iff_ne, hcond.2]
    · rw [FindClosingQuotationMark, if_neg hcond] at h
      cases hrec : FindClosingQuotationMark c rest with
      | none => rw [hrec] at h; cases h
      | some pr =>
        obtain ⟨content2, r2⟩ := pr
        rw [hrec] at h
        injection h with h
        injection h with h1 h2
        subst h2
        obtain ⟨hco, hsh⟩ := ih hrec
        subst h1
        refine ⟨?_, by simp [hsh]⟩
        rw [ContentOk, hco, Bool.and_true]
        by_cases hc : c = dq
        · have : prev = bsl := by
            by_contra hb
            exact hcond ⟨hc, hb⟩
          simp [hc, this]
        · simp [hc]

/-- Well-formed content scans to its own closing quote, whatever follows. -/
theorem FindClosingQuotationMark_of_content :
    ∀ {content : List Char} {prev}, ContentOk prev content = true → ∀ r,
      FindClosingQuotationMark prev (content ++ dq :: r) = some (content, r) := by
  intro content
  induction content with
  | nil =>
    intro prev h r
    have hprev : prev ≠ bsl := by
      simpa [ContentOk, bne_iff_ne] using h
    simp [FindClosingQuotationMark, hprev]
  | cons c t ih =>
    intro prev h r
    rw [ContentOk, Bool.and_eq_true] at h
    obtain ⟨hhead, htail⟩ := h
    have hcond : ¬(c = dq ∧ prev ≠ bsl) := by
      rintro ⟨rfl, hb⟩
      rw [if_pos rfl] at hhead
      exact hb (by simpa using hhead)
    rw [List.cons_append, FindClosingQuotationMark, if_neg hcond, ih htail r]

/-- The structural characters include no quote. -/
theorem structural_ne_dq {c : Char} (h : structuralChars.contains c = true) : c ≠ dq := by
  intro h2
  subst h2
  exact absurd h (by decide)

/-- A character that is neither whitespace nor structural is not a
closing character either. -/
theorem not_closing_of_not_ws_structural {c : Char} (hws : ¬wsChars.contains c = true)
    (hst : ¬structuralChars.contains c = true) : closingChars.contains c = false := by
  cases h : closingChars.contains c
  · rfl
  · exfalso
    have hmem : c ∈ closingChars := by simpa using h
    have hall : ∀ x ∈ closingChars, x ∈ wsChars ∨ x ∈ structuralChars := by decide
    rcases hall c hmem with hm | hm
    · exact hws (by simpa using hm)
    · exact hst (by simpa using hm)

/-- Every token the lexer produces satisfies `QuoteTokOk`: quote-led
tokens are complete quote-delimited tokens with well-formed content. -/
theorem LexF_tokens_quoteOk :
    ∀ f s toks, LexF f s = .ok toks → ∀ tok ∈ toks, QuoteTokOk tok := by
  intro f
  induction f with
  | zero => intro s toks h; cases h
  | succ f ih =>
    intro s toks h tok htok
    match s with
    | [] =>
      rw [LexF] at h
      injection h with h
      subst h
      cases htok
    | c :: rest =>
      rw [LexF] at h
      split at h
      next hws => exact ih rest toks h tok htok
      next hws =>
        split at h
        next hst =>
          split at h
          next toks2 hrec =>
            injection h with h
            subst h
            rcases List.mem_cons.mp htok with rfl | hmem
            · intro hhead
              exfalso
              apply structural_ne_dq hst
              simpa using hhead
            · exact ih rest toks2 hrec tok hmem
          next e hrec => cases h
        next hst =>
          split at h
          next hdq =>
            split at h
            next content r hq =>
              split at h
              next toks2 hrec =>
                injection h with h
                subst h
                rcases List.mem_cons.mp htok with rfl | hmem
                · intro _
                  exact ⟨content, by simp, (FindClosingQuotationMark_content hq).1⟩
                · exact ih r toks2 hrec tok hmem
              next e hrec => cases h
            next hq => cases h
          next hdq =>
            split at h
            next btok r hb =>
              split at h
              next toks2 hrec =>
                injection h with h
                subst h
                rcases List.mem_cons.mp htok with rfl | hmem
                · intro hhead
                  exfalso
                  have hcl : closingChars.contains c = false :=
                    not_closing_of_not_ws_structural hws hst
                  rw [FindClosingCharacter_eq] at hb
                  by_cases hr : BareTokenRest (c :: rest) = []
                  · rw [if_pos hr] at hb
                    cases hb
                  · rw [if_neg hr] at hb
                    injection hb with hb
                    injection hb with hb1 hb2
                    have hscan : BareTokenScan (c :: rest) = c :: rest.takeWhile
                        (fun x => !closingChars.contains x) := by
                      unfold BareTokenScan
                      rw [List.takeWhile_cons, hcl]
                      rfl
                    rw [← hb1, hscan] at hhead
                    exact hdq (by simpa using hhead)
                · exact ih r toks2 hrec tok hmem
              next e hrec => cases h
            next hb => cases h

/-- Stripping the delimiting quotes of `dq :: v ++ [dq]` recovers `v`. -/
theorem unquote_eq {v : List Char} : ((dq :: (v ++ [dq])).drop 1).dropLast = v := by
  simp

/-- A successful `ParseStringElement` stores non-empty, well-formed
content under the given key. -/
theorem ParseStringElement_sound {tok : Tok} {key : List Char} {e : JSONElement}
    (h : ParseStringElement tok key = .ok e) (hq : QuoteTokOk tok) :
    ∃ v, e = .StringElement key v ∧ v ≠ [] ∧ ContentOk dq v = true := by
  unfold ParseStringElement at h
  split at h
  next hcond =>
    obtain ⟨hlen, hhead, -⟩ := hcond
    obtain ⟨v, hv, hco⟩ := hq hhead
    injection h with h
    subst hv
    refine ⟨v, ?_, ?_, hco⟩
    · rw [← h]
      rw [unquote_eq]
    · intro hnil
      subst hnil
      simp at hlen
  next => cases h

/-- A successful `Stoll` lies in the signed 64-bit range. -/
theorem Stoll_ok_range {tok : List Char} {n : Int} (h : Stoll tok = .ok n) :
    -(2 ^ 63) ≤ n ∧ n ≤ 2 ^ 63 - 1 := by
  simp only [Stoll] at h
  set ds := (ReadSign tok).2.takeWhile Char.isDigit with hds
  set m : Int := if (ReadSign tok).1 = true then -(DigitsVal ds : Int) else (DigitsVal ds : Int)
    with hm
  by_cases h1 : ds = []
  · rw [if_pos h1] at h
    cases h
  · rw [if_neg h1] at h
    by_cases h2 : m < -(2 ^ 63) ∨ 2 ^ 63 - 1 < m
    · rw [if_pos h2] at h
      cases h
    · rw [if_neg h2] at h
      injection h with h
      subst h
      push_neg at h2
      omega

/-- A successful `ParseNumberElement` yields a well-formed number element
under the given key. -/
theorem ParseNumberElement_sound {tok : Tok} {key : List Char} {e : JSONElement}
    (h : ParseNumberElement tok key = .ok e) :
    WFElement e = true ∧ e.key = key := by
  unfold ParseNumberElement at h
  by_cases hdec : IsValidDecimal tok = true
  · rw [if_pos hdec] at h
    cases hst : Stold tok with
    | none => rw [hst] at h; cases h
    | some q =>
      rw [hst] at h
      injection h with h
      subst h
      exact ⟨rfl, rfl⟩
  · rw [if_neg hdec] at h
    cases hst : Stoll tok with
    | error err =>
      rw [hst] at h
      cases err
      · cases h
      · cases h
    | ok n =>
      rw [hst] at h
      injection h with h
      subst h
      obtain ⟨h1, h2⟩ := Stoll_ok_range hst
      refine ⟨?_, rfl⟩
      simp only [WFElement, Bool.and_eq_true, decide_eq_true_eq]
      omega

/-- A successful `ParseKey` yields a non-empty, well-formed key and hands
back a suffix of its input. -/
theorem ParseKey_sound {toks : List Tok} {k : List Char} {rest : List Tok}
    (h : ParseKey toks = .ok (k, rest)) (htq : ∀ t ∈ toks, QuoteTokOk t) :
    k ≠ [] ∧ ContentOk dq k = true ∧ ∀ t ∈ rest, QuoteTokOk t := by
  match toks with
  | [] => cases h
  | tok :: rest0 =>
    simp only [ParseKey] at h
    split at h
    next hcond =>
      obtain ⟨hlen, hhead, -⟩ := hcond
      obtain ⟨v, hv, hco⟩ := htq tok (by simp) hhead
      split at h
      next => cases h
      next c rest2 =>
        split at h
        next hcolon =>
          injection h with h
          injection h with h1 h2
          subst h2
          subst hv
          rw [unquote_eq] at h1
          subst h1
          refine ⟨?_, hco, fun t ht => htq t (by simp [ht])⟩
          intro hnil
          subst hnil
          simp at hlen
        next => cases h
    next => cases h

/-- A non-empty list is not `isEmpty`. -/
theorem isEmpty_false_of_ne_nil {l : List Char} (h : l ≠ []) : l.isEmpty = false := by
  cases l
  · exact absurd rfl h
  · rfl

mutual

/-- Soundness of the value dispatcher: a parsed element is well-formed,
carries the key it was asked to parse under, and the handed-back tokens
are again lexer tokens. -/
theorem Parse_sound : ∀ f ci toks key e rest,
    Parse f ci toks key = .ok (some e, rest) → (∀ t ∈ toks, QuoteTokOk t) →
    WFElement e = true ∧ e.key = key ∧ ∀ t ∈ rest, QuoteTokOk t
  | 0, ci, toks, key, e, rest => by
    intro h htq
    match toks, h with
    | [], h => simp [Parse] at h
    | t :: ts, h => cases h
  | f + 1, ci, [], key, e, rest => by
    intro h htq
    simp [Parse] at h
  | f + 1, ci, tok :: rest0, key, e, rest => by
    intro h htq
    rw [Parse] at h
    split at h
    next hlbr =>
      split at h
      next r hobj => cases h
      next obj r2 heq =>
        injection h with h
        injection h with h1 h2
        injection h1 with h1
        subst h1
        subst h2
        exact ParseObjectElement_sound f ci (tok :: rest0) key obj r2 heq htq
    next hlbr =>
      split at h
      next hsq =>
        split at h
        next r harr => cases h
        next arr r2 heq =>
          injection h with h
          injection h with h1 h2
          injection h1 with h1
          subst h1
          subst h2
          exact ParseArrayElement_sound f ci (tok :: rest0) key arr r2 heq htq
      next hsq =>
        split at h
        next hq =>
          split at h
          next r hs => cases h
          next selem heq =>
            injection h with h
            injection h with h1 h2
            injection h1 with h1
            subst h1
            subst h2
            obtain ⟨v, rfl, hvne, hvco⟩ := ParseStringElement_sound heq (htq tok (by simp))
            refine ⟨?_, rfl, fun t ht => htq t (by simp [ht])⟩
            simp [WFElement, isEmpty_false_of_ne_nil hvne, hvco]
        next hq =>
          split at h
          next hlit =>
            split at h
            next => cases h
            next =>
              injection h with h
              injection h with h1 h2
              injection h1 with h1
              subst h1
              subst h2
              exact ⟨rfl, rfl, fun t ht => htq t (by simp [ht])⟩
          next hlit =>
            split at h
            next hnull =>
              split at h
              next => cases h
              next =>
                injection h with h
                injection h with h1 h2
                injection h1 with h1
                subst h1
                subst h2
                exact ⟨rfl, rfl, fun t ht => htq t (by simp [ht])⟩
            next hnull =>
              split at h
              next hnum =>
                split at h
                next r hne => cases h
                next nelem heq =>
                  injection h with h
                  injection h with h1 h2
                  injection h1 with h1
                  subst h1
                  subst h2
                  obtain ⟨hwf, hkey⟩ := ParseNumberElement_sound heq
                  exact ⟨hwf, hkey, fun t ht => htq t (by simp [ht])⟩
              next hnum => cases h
  termination_by f => (f, 0)

/-- Soundness of the object production: an object whose members are
well-formed, under the requested key. -/
theorem ParseObjectElement_sound : ∀ f ci toks key e rest,
    ParseObjectElement f ci toks key = .ok (e, rest) → (∀ t ∈ toks, QuoteTokOk t) →
    WFElement e = true ∧ e.key = key ∧ ∀ t ∈ rest, QuoteTokOk t
  | f, ci, [], key, e, rest => by intro h _; simp [ParseObjectElement] at h
  | 0, ci, t :: ts, key, e, rest => by intro h _; cases h
  | g + 1, ci, tok :: rest0, key, e, rest => by
    intro h htq
    rw [ParseObjectElement] at h
    split at h
    next hlbr =>
      split at h
      next r hloop => cases h
      next children r2 hloop =>
        injection h with h
        injection h with h1 h2
        subst h2
        obtain ⟨hwf, htq2⟩ :=
          ObjectLoop_sound g ci rest0 children r2 hloop (fun t ht => htq t (by simp [ht]))
        subst h1
        exact ⟨hwf, rfl, htq2⟩
      -- no further cases
    next => cases h
  termination_by f => (f, 1)

/-- Soundness of the object member loop. -/
theorem ObjectLoop_sound : ∀ f ci toks cs rest,
    ObjectLoop f ci toks = .ok (cs, rest) → (∀ t ∈ toks, QuoteTokOk t) →
    WFMembers cs = true ∧ ∀ t ∈ rest, QuoteTokOk t
  | f, ci, [], cs, rest => by intro h _; simp [ObjectLoop] at h
  | 0, ci, t :: ts, cs, rest => by intro h _; cases h
  | g + 1, ci, tok :: rest0, cs, rest => by
    intro h htq
    rw [ObjectLoop] at h
    split at h
    next hrbr =>
      injection h with h
      injection h with h1 h2
      subst h1
      subst h2
      exact ⟨rfl, fun t ht => htq t (by simp [ht])⟩
    next hrbr =>
      split at h
      next hcomma =>
        exact ObjectLoop_sound g ci rest0 cs rest h (fun t ht => htq t (by simp [ht]))
      next hcomma =>
        split at h
        next r hkey => cases h
        next ck rest1 hkey =>
          split at h
          next r hp => cases h
          next r2 hp => cases h
          next child rest2 hp =>
            obtain ⟨hkne, hkco, htq1⟩ := ParseKey_sound hkey htq
            obtain ⟨hcwf, hckey, htq2⟩ := Parse_sound g ci rest1 ck child rest2 hp htq1
            split at h
            next => cases h
            next ntok tl =>
              split at h
              next hsep =>
                split at h
                next r hloop => cases h
                next children r2 hloop =>
                  injection h with h
                  injection h with h1 h2
                  subst h1
                  subst h2
                  obtain ⟨hmwf, htq3⟩ := ObjectLoop_sound g ci (ntok :: tl) children r2 hloop htq2
                  refine ⟨?_, htq3⟩
                  simp only [WFMembers, hckey, Bool.and_eq_true, Bool.not_eq_true']
                  exact ⟨⟨⟨isEmpty_false_of_ne_nil hkne, hkco⟩, hcwf⟩, hmwf⟩
              next => cases h
  termination_by f => (f, 0)

/-- Soundness of the array production. -/
theorem ParseArrayElement_sound : ∀ f ci toks key e rest,
    ParseArrayElement f ci toks key = .ok (e, rest) → (∀ t ∈ toks, QuoteTokOk t) →
    WFElement e = true ∧ e.key = key ∧ ∀ t ∈ rest, QuoteTokOk t
  | f, ci, [], key, e, rest => by intro h _; simp [ParseArrayElement] at h
  | 0, ci, t :: ts, key, e, rest => by intro h _; cases h
  | g + 1, ci, tok :: rest0, key, e, rest => by
    intro h htq
    rw [ParseArrayElement] at h
    split at h
    next hsq =>
      split at h
      next r hloop => cases h
      next items r2 hloop =>
        injection h with h
        injection h with h1 h2
        subst h2
        obtain ⟨hwf, htq2⟩ :=
          ArrayLoop_sound g ci rest0 items r2 hloop (fun t ht => htq t (by simp [ht]))
        subst h1
        exact ⟨hwf, rfl, htq2⟩
    next => cases h
  termination_by f => (f, 1)

/-- Soundness of the array item loop: items are well-formed and carry
empty keys. -/
theorem ArrayLoop_sound : ∀ f ci toks xs rest,
    ArrayLoop f ci toks = .ok (xs, rest) → (∀ t ∈ toks, QuoteTokOk t) →
    WFItems xs = true ∧ ∀ t ∈ rest, QuoteTokOk t
  | f, ci, [], xs, rest => by intro h _; simp [ArrayLoop] at h
  | 0, ci, t :: ts, xs, rest => by intro h _; cases h
  | g + 1, ci, tok :: rest0, xs, rest => by
    intro h htq
    rw [ArrayLoop] at h
    split at h
    next hsq =>
      injection h with h
      injection h with h1 h2
      subst h1
      subst h2
      exact ⟨rfl, fun t ht => htq t (by simp [ht])⟩
    next hsq =>
      split at h
      next hcomma =>
        exact ArrayLoop_sound g ci rest0 xs rest h (fun t ht => htq t (by simp [ht]))
      next hcomma =>
        split at h
        next r hp => cases h
        next r2 hp => cases h
        next item rest2 hp =>
          obtain ⟨hiwf, hikey, htq2⟩ := Parse_sound g ci (tok :: rest0) [] item rest2 hp htq
          split at h
          next => cases h
          next ntok tl =>
            split at h
            next hsep =>
              split at h
              next r hloop => cases h
              next items r2 hloop =>
                injection h with h
                injection h with h1 h2
                subst h1
                subst h2
                obtain ⟨hxwf, htq3⟩ := ArrayLoop_sound g ci (ntok :: tl) items r2 hloop htq2
                refine ⟨?_, htq3⟩
                simp only [WFItems, hikey, Bool.and_eq_true]
                exact ⟨⟨rfl, hiwf⟩, hxwf⟩
            next => cases h
  termination_by f => (f, 0)

end

mutual

/-- Well-formedness implies the key invariant, at any node whose own key
matches its position (`isEmpty = !isMember`). -/
theorem WF_keyInv : ∀ (t : JSONElement) (isMember : Bool), WFElement t = true →
    t.key.isEmpty = !isMember → KeyInvariant isMember t = true
  | .ObjectElement k cs, isMember, hwf, hkey => by
    simp only [KeyInvariant, Bool.and_eq_true]
    refine ⟨?_, WFMembers_keyInv cs hwf⟩
    simp only [JSONElement.key] at hkey
    cases isMember <;> simp [hkey]
  | .ArrayElement k xs, isMember, hwf, hkey => by
    simp only [KeyInvariant, Bool.and_eq_true]
    refine ⟨?_, WFItems_keyInv xs hwf⟩
    simp only [JSONElement.key] at hkey
    cases isMember <;> simp [hkey]
  | .StringElement k v, isMember, hwf, hkey => by
    simp only [KeyInvariant]
    simp only [JSONElement.key] at hkey
    cases isMember <;> simp [hkey]
  | .NumberInt k n, isMember, hwf, hkey => by
    simp only [KeyInvariant]
    simp only [JSONElement.key] at hkey
    cases isMember <;> simp [hkey]
  | .NumberDec k x p, isMember, hwf, hkey => by
    simp only [KeyInvariant]
    simp only [JSONElement.key] at hkey
    cases isMember <;> simp [hkey]
  | .BoolElement k b, isMember, hwf, hkey => by
    simp only [KeyInvariant]
    simp only [JSONElement.key] at hkey
    cases isMember <;> simp [hkey]
  | .NullElement k, isMember, hwf, hkey => by
    simp only [KeyInvariant]
    simp only [JSONElement.key] at hkey
    cases isMember <;> simp [hkey]

/-- Well-formed member lists satisfy the member-side key invariant. -/
theorem WFMembers_keyInv : ∀ cs, WFMembers cs = true → KeyInvariantList true cs = true
  | [], _ => rfl
  | c :: cs, h => by
    simp only [WFMembers, Bool.and_eq_true, Bool.not_eq_true'] at h
    obtain ⟨⟨⟨hk, -⟩, hwf⟩, htail⟩ := h
    simp only [KeyInvariantList, Bool.and_eq_true]
    exact ⟨WF_keyInv c true hwf (by rw [hk]; rfl), WFMembers_keyInv cs htail⟩

/-- Well-formed item lists satisfy the item-side key invariant. -/
theorem WFItems_keyInv : ∀ xs, WFItems xs = true → KeyInvariantList false xs = true
  | [], _ => rfl
  | x :: xs, h => by
    simp only [WFItems, Bool.and_eq_true] at h
    obtain ⟨⟨hk, hwf⟩, htail⟩ := h
    simp only [KeyInvariantList, Bool.and_eq_true]
    refine ⟨WF_keyInv x false hwf ?_, WFItems_keyInv xs htail⟩
    rw [hk]
    rfl

end

mutual

/-- Well-formedness implies no empty string values and no empty member
keys anywhere below. -/
theorem WF_noEmpty : ∀ t : JSONElement, WFElement t = true → NoEmptyPieces t = true
  | .ObjectElement k cs, h => WFMembers_noEmpty cs h
  | .ArrayElement k xs, h => WFItems_noEmpty xs h
  | .StringElement k v, h => by
    simp only [WFElement, Bool.and_eq_true] at h
    simp only [NoEmptyPieces]
    exact h.1
  | .NumberInt k n, _ => rfl
  | .NumberDec k x p, _ => rfl
  | .BoolElement k b, _ => rfl
  | .NullElement k, _ => rfl

/-- The member-list side of `WF_noEmpty`. -/
theorem WFMembers_noEmpty : ∀ cs, WFMembers cs = true → NoEmptyPiecesMembers cs = true
  | [], _ => rfl
  | c :: cs, h => by
    simp only [WFMembers, Bool.and_eq_true] at h
    obtain ⟨⟨⟨hk, -⟩, hwf⟩, htail⟩ := h
    simp only [NoEmptyPiecesMembers, Bool.and_eq_true]
    exact ⟨⟨hk, WF_noEmpty c hwf⟩, WFMembers_noEmpty cs htail⟩

/-- The item-list side of `WF_noEmpty`. -/
theorem WFItems_noEmpty : ∀ xs, WFItems xs = true → NoEmptyPiecesItems xs = true
  | [], _ => rfl
  | x :: xs, h => by
    simp only [WFItems, Bool.and_eq_true] at h
    obtain ⟨⟨-, hwf⟩, htail⟩ := h
    simp only [NoEmptyPiecesItems, Bool.and_eq_true]
    exact ⟨WF_noEmpty x hwf, WFItems_noEmpty xs htail⟩

end

/-- Inversion of a successful document construction: the text lexes, the
token stream parses to the root from key `""`, and the root is an
object. -/
theorem JSONConstruct_ok_inv {s : List Char} {root : JSONElement}
    (h : JSONConstruct s = .ok root) :
    ∃ tokens rest, Lex s = .ok tokens
      ∧ Parse (2 * tokens.length + 2) true tokens [] = .ok (some root, rest)
      ∧ root.IsObject = true := by
  unfold JSONConstruct at h
  split at h
  next e hlex => cases h
  next tokens hlex =>
    split at h
    next e hp => cases h
    next root2 snd hp =>
      split at h
      next hobj =>
        injection h with h
        subst h
        exact ⟨tokens, snd, hlex, hp, hobj⟩
      next hobj => cases h
    next snd hp => cases h

/-- The root of a successful construction is well-formed with an empty
key. -/
theorem JSONConstruct_ok_wf {s : List Char} {root : JSONElement}
    (h : JSONConstruct s = .ok root) :
    WFElement root = true ∧ root.key = [] := by
  obtain ⟨tokens, rest, hlex, hp, -⟩ := JSONConstruct_ok_inv h
  have htq := LexF_tokens_quoteOk _ _ _ hlex
  obtain ⟨hwf, hkey, -⟩ := Parse_sound _ true tokens [] root rest hp htq
  exact ⟨hwf, hkey⟩

/-- C8: in every successfully parsed document, an element's key is
non-empty exactly when it is a direct child of an Object; array items and
the root carry empty keys. -/
theorem C8_key_nonempty_iff_object_member :
    ∀ s root, JSONConstruct s = .ok root → KeyInvariant false root = true := by
  intro s root h
  obtain ⟨hwf, hkey⟩ := JSONConstruct_ok_wf h
  exact WF_keyInv root false hwf (by rw [hkey]; rfl)

/-- Witness for `C8_key_nonempty_iff_object_member` on the document
`{"a":1,"b":[2]}`: the member keys are non-empty, the array item's and
the root's keys are empty. -/
theorem C8_witness :
    KeyInvariant false
      (.ObjectElement [] [.NumberInt ['a'] 1, .ArrayElement ['b'] [.NumberInt [] 2]]) = true :=
  C8_key_nonempty_iff_object_member ("\x7b\"a\":1,\"b\":[2]\x7d".toList)
    (.ObjectElement [] [.NumberInt ['a'] 1, .ArrayElement ['b'] [.NumberInt [] 2]]) rfl

/-- C10: every token of length 2 or less (in particular the empty-string
token `""`) is rejected by the String production with the invalid-string
failure and by the Key production with the key-string failure, and
consequently no successfully parsed document contains an empty string
value or a member with an empty key. -/
theorem C10_short_string_tokens_rejected :
    (∀ (tok : Tok) key, tok.length ≤ 2 →
        ParseStringElement tok key = .error (.err .E_PARSE_ERR_INVALID_STRING))
    ∧ (∀ (tok : Tok) rest, tok.length ≤ 2 →
        ParseKey (tok :: rest) = .error (.err .E_INVALID_JSON_KEY_STRING))
    ∧ (∀ s root, JSONConstruct s = .ok root → NoEmptyPieces root = true) := by
  refine ⟨fun tok key hlen => ?_, fun tok rest hlen => ?_, fun s root h => ?_⟩
  · unfold ParseStringElement
    rw [if_neg]
    rintro ⟨h1, -⟩
    omega
  · simp only [ParseKey]
    rw [if_neg]
    rintro ⟨h1, -⟩
    omega
  · exact WF_noEmpty root (JSONConstruct_ok_wf h).1

/-- Witness for `C10_short_string_tokens_rejected`: the empty-string
token `""` is rejected by both productions, and the document
`{"a":"xy"}` contains no empty pieces. -/
theorem C10_witness :
    ParseStringElement [dq, dq] [] = .error (.err .E_PARSE_ERR_INVALID_STRING)
    ∧ ParseKey [[dq, dq]] = .error (.err .E_INVALID_JSON_KEY_STRING)
    ∧ NoEmptyPieces (.ObjectElement [] [.StringElement ['a'] ['x', 'y']]) = true :=
  ⟨C10_short_string_tokens_rejected.1 [dq, dq] [] (by decide),
   C10_short_string_tokens_rejected.2.1 [dq, dq] [] (by decide),
   C10_short_string_tokens_rejected.2.2 ("\x7b\"a\":\"xy\"\x7d".toList)
     (.ObjectElement [] [.StringElement ['a'] ['x', 'y']]) rfl⟩

/-- `DigitsVal` of an appended final digit. -/
theorem DigitsVal_concat (xs : List Char) (c : Char) :
    DigitsVal (xs ++ [c]) = 10 * DigitsVal xs + (c.toNat - 48) := by
  unfold DigitsVal
  rw [List.foldl_append]
  rfl

/-- Accumulator form of `DigitsVal`. -/
theorem DigitsVal_foldl (l : List Char) : ∀ a : Nat,
    l.foldl (fun a c => 10 * a + (c.toNat - 48)) a = a * 10 ^ l.length + DigitsVal l := by
  induction l with
  | nil => intro a; simp [DigitsVal]
  | cons c t ih =>
    intro a
    rw [List.foldl_cons, ih]
    have hv : DigitsVal (c :: t) = (c.toNat - 48) * 10 ^ t.length + DigitsVal t := by
      unfold DigitsVal
      rw [List.foldl_cons, ih]
      simp [DigitsVal]
    rw [hv, List.length_cons, pow_succ]
    ring

/-- `DigitsVal` distributes over append. -/
theorem DigitsVal_append (a b : List Char) :
    DigitsVal (a ++ b) = DigitsVal a * 10 ^ b.length + DigitsVal b := by
  unfold DigitsVal
  rw [List.foldl_append, DigitsVal_foldl]
  simp [DigitsVal]

/-- Rendering then reading a natural number is the identity. -/
theorem DigitsVal_natDigitsAux : ∀ f n, n < f → DigitsVal (NatDigitsAux f n) = n := by
  intro f
  induction f with
  | zero => intro n hn; omega
  | succ f ih =>
    intro n hn
    by_cases h10 : n < 10
    · rw [NatDigitsAux, if_pos h10]
      have := (DigitChar_spec h10).2
      simp [DigitsVal, this]
    · rw [NatDigitsAux, if_neg h10, DigitsVal_concat, ih (n / 10) (by omega)]
      have := (DigitChar_spec (Nat.mod_lt n (by omega : (0:Nat) < 10))).2
      omega

/-- `DigitsVal (NatToChars n) = n`. -/
theorem NatToChars_val (n : Nat) : DigitsVal (NatToChars n) = n :=
  DigitsVal_natDigitsAux (n + 1) n (Nat.lt_succ_self n)

/-- `NatDigitsAux` with positive fuel is non-empty. -/
theorem NatDigitsAux_ne_nil : ∀ f n, NatDigitsAux (f + 1) n ≠ [] := by
  intro f n
  by_cases h10 : n < 10
  · rw [NatDigitsAux, if_pos h10]
    simp
  · rw [NatDigitsAux, if_neg h10]
    simp

/-- `NatToChars` is non-empty. -/
theorem NatToChars_ne_nil (n : Nat) : NatToChars n ≠ [] := NatDigitsAux_ne_nil n n

/-- A digit value below ten renders inside `digitChars`. -/
theorem DigitChar_mem {d : Nat} (h : d < 10) : DigitChar d ∈ digitChars := by
  interval_cases d
  all_goals decide

/-- Every character `NatDigitsAux` emits is one of the ten digits. -/
theorem NatDigitsAux_mem : ∀ f n c, n < f → c ∈ NatDigitsAux f n → c ∈ digitChars := by
  intro f
  induction f with
  | zero => intro n c hn; omega
  | succ f ih =>
    intro n c hn hc
    by_cases h10 : n < 10
    · rw [NatDigitsAux, if_pos h10] at hc
      rw [List.mem_singleton] at hc
      exact hc ▸ DigitChar_mem h10
    · rw [NatDigitsAux, if_neg h10] at hc
      rcases List.mem_append.mp hc with hc | hc
      · exact ih (n / 10) c (by omega) hc
      · rw [List.mem_singleton] at hc
        exact hc ▸ DigitChar_mem (Nat.mod_lt n (by omega))

/-- Every character of `NatToChars` is one of the ten digits. -/
theorem NatToChars_mem {n : Nat} {c : Char} (hc : c ∈ NatToChars n) : c ∈ digitChars :=
  NatDigitsAux_mem (n + 1) n c (Nat.lt_succ_self n) hc

/-- The facts the dispatcher and the lexer need about digit characters. -/
theorem digitChars_facts : ∀ c ∈ digitChars,
    validChars.contains c = true ∧ closingChars.contains c = false ∧
    wsChars.contains c = false ∧ structuralChars.contains c = false ∧
    c ≠ dq ∧ c ≠ '.' ∧ c ≠ '-' ∧ c ≠ '+' ∧ c.isDigit = true := by decide

/-- `takeWhile` keeps a list it fully satisfies. -/
theorem takeWhile_all (p : Char → Bool) {l : List Char} (h : ∀ c ∈ l, p c = true) :
    l.takeWhile p = l := by
  have := takeWhile_all_append p [] h
  simpa using this

/-- `dropWhile` passes over a prefix it fully satisfies. -/
theorem dropWhile_all_append (p : Char → Bool) {l1 : List Char} (l2 : List Char)
    (h : ∀ c ∈ l1, p c = true) :
    (l1 ++ l2).dropWhile p = l2.dropWhile p := by
  induction l1 with
  | nil => rfl
  | cons c t ih =>
    simp only [List.cons_append, List.dropWhile_cons, h c (by simp)]
    exact ih fun c hc => h c (by simp [hc])

/-- `dropWhile` empties a list it fully satisfies. -/
theorem dropWhile_all (p : Char → Bool) {l : List Char} (h : ∀ c ∈ l, p c = true) :
    l.dropWhile p = [] := by
  have := dropWhile_all_append p [] h
  simpa using this

/-- `ReadSign` on a leading minus. -/
theorem ReadSign_neg (l : List Char) : ReadSign ('-' :: l) = (true, l) := rfl

/-- `ReadSign` on a leading plus. -/
theorem ReadSign_plus (l : List Char) : ReadSign ('+' :: l) = (false, l) := rfl

/-- `ReadSign` on anything else. -/
theorem ReadSign_other {c : Char} (l : List Char) (h1 : c ≠ '-') (h2 : c ≠ '+') :
    ReadSign (c :: l) = (false, c :: l) := by
  unfold ReadSign
  split
  next h => exact absurd (List.head_eq_of_cons_eq h.symm).symm h1
  next h => exact absurd (List.head_eq_of_cons_eq h.symm).symm h2
  next => rfl

/-- A digit character is neither sign character. -/
theorem isDigit_ne_signs {c : Char} (h : c.isDigit = true) : c ≠ '-' ∧ c ≠ '+' := by
  constructor <;> (intro h2; subst h2; exact absurd h (by decide))

/-- A leading zero contributes nothing to a digit string's value. -/
theorem DigitsVal_cons_zero (l : List Char) : DigitsVal ('0' :: l) = DigitsVal l := by
  unfold DigitsVal
  rw [List.foldl_cons, DigitsVal_foldl]
  norm_num [DigitsVal, show '0'.toNat - 48 = 0 from by decide]

/-- A string of zeros has value zero. -/
theorem DigitsVal_replicate_zero (k : Nat) : DigitsVal (List.replicate k '0') = 0 := by
  induction k with
  | zero => rfl
  | succ k ih => rw [List.replicate_succ, DigitsVal_cons_zero, ih]

/-- Zero-padding preserves a digit string's value. -/
theorem PadZeros_val (p : Nat) (ds : List Char) : DigitsVal (PadZeros p ds) = DigitsVal ds := by
  unfold PadZeros
  rw [DigitsVal_append, DigitsVal_replicate_zero]
  simp

/-- `Stoll` on an optional sign followed by a digit string evaluates to
the signed digit value, provided it is in the 64-bit range. -/
theorem Stoll_canonical {ds : List Char} (neg : Bool) {v : Int}
    (hds : ∀ c ∈ ds, c.isDigit = true) (hne : ds ≠ [])
    (hv : v = if neg then -(DigitsVal ds : Int) else (DigitsVal ds : Int))
    (h1 : -(2 ^ 63) ≤ v) (h2 : v ≤ 2 ^ 63 - 1) :
    Stoll ((if neg then ['-'] else []) ++ ds) = .ok v := by
  have hrs : ReadSign ((if neg then ['-'] else []) ++ ds) = (neg, ds) := by
    cases neg
    · rcases ds with _ | ⟨c, t⟩
      · exact absurd rfl hne
      · have hd := hds c (by simp)
        obtain ⟨hm, hp⟩ := isDigit_ne_signs hd
        simpa using ReadSign_other t hm hp
    · simpa using ReadSign_neg ds
  simp only [Stoll, hrs]
  rw [takeWhile_all Char.isDigit hds, if_neg hne, ← hv, if_neg (by omega)]

/-- `std::to_string` of an in-range 64-bit integer reads back with
`std::stoll` as the same integer. -/
theorem Stoll_intToChars {n : Int} (h1 : -(2 ^ 63) ≤ n) (h2 : n ≤ 2 ^ 63 - 1) :
    Stoll (IntToChars n) = .ok n := by
  have hfx : IntToChars n = (if decide (n < 0) then ['-'] else []) ++ NatToChars n.natAbs := by
    unfold IntToChars
    by_cases hn : n < 0 <;> simp [hn]
  rw [hfx]
  refine Stoll_canonical (decide (n < 0)) (NatToChars_digits _) (NatToChars_ne_nil _) ?_ h1 h2
  rw [NatToChars_val]
  by_cases hn : n < 0
  · rw [if_pos (decide_eq_true hn)]
    omega
  · rw [if_neg (by simpa using hn)]
    omega

/-- `Stold` on a canonical fixed-point numeral: optional sign, integer
digits, a dot, fraction digits. -/
theorem Stold_canonical {d1 d2 : List Char} (neg : Bool)
    (hd1 : ∀ c ∈ d1, c.isDigit = true) (hd2 : ∀ c ∈ d2, c.isDigit = true)
    (hne : d1 ≠ []) :
    Stold ((if neg then ['-'] else []) ++ (d1 ++ '.' :: d2)) =
      some ⟨if neg then -(DigitsVal (d1 ++ d2) : Int) else (DigitsVal (d1 ++ d2) : Int),
            0 - (d2.length : Int)⟩ := by
  have hrs : ReadSign ((if neg then ['-'] else []) ++ (d1 ++ '.' :: d2)) =
      (neg, d1 ++ '.' :: d2) := by
    cases neg
    · rcases d1 with _ | ⟨c, t⟩
      · exact absurd rfl hne
      · have hd := hd1 c (by simp)
        obtain ⟨hm, hp⟩ := isDigit_ne_signs hd
        simpa using ReadSign_other (t ++ '.' :: d2) hm hp
    · simpa using ReadSign_neg (d1 ++ '.' :: d2)
  simp only [Stold, hrs]
  rw [takeWhile_all_append Char.isDigit _ hd1, dropWhile_all_append Char.isDigit _ hd1,
    List.takeWhile_cons, List.dropWhile_cons]
  simp only [show ('.'.isDigit : Bool) = false from by decide, Bool.false_eq_true, if_false,
    List.append_nil, List.head?_cons, List.tail_cons]
  simp only [if_true]
  rw [takeWhile_all Char.isDigit hd2, dropWhile_all Char.isDigit hd2,
    if_neg (fun h => hne h.1)]

/-- `std::stold` reads a canonical fixed-point rendering back as the exact
decimal value the rendering denotes. -/
theorem Stold_fixedToChars (x : LongDouble) {q : Nat} (hq : 0 < q) :
    Stold (FixedToChars x q) = some ⟨ScaleRound x.mant (x.exp10 + q), -(q : Int)⟩ := by
  set n := ScaleRound x.mant (x.exp10 + (q : Int)) with hn
  have hfx : FixedToChars x q =
      (if decide (n < 0) then ['-'] else []) ++
        (NatToChars (n.natAbs / 10 ^ q) ++ '.' :: PadZeros q (NatToChars (n.natAbs % 10 ^ q))) := by
    simp only [FixedToChars, ← hn, if_neg (by omega : ¬q = 0)]
    by_cases hneg : n < 0 <;> simp [hneg]
  rw [hfx, Stold_canonical (decide (n < 0)) (NatToChars_digits _)
    (PadZeros_digits (NatToChars_digits _)) (NatToChars_ne_nil _)]
  have hlen : (PadZeros q (NatToChars (n.natAbs % 10 ^ q))).length = q :=
    PadZeros_length (NatToChars_length_le (Nat.mod_lt _ (pow_pos (by norm_num) q)) hq)
  have hval : DigitsVal (NatToChars (n.natAbs / 10 ^ q) ++
      PadZeros q (NatToChars (n.natAbs % 10 ^ q))) = n.natAbs := by
    rw [DigitsVal_append, PadZeros_val, NatToChars_val, NatToChars_val, hlen, Nat.div_add_mod']
  rw [hval, hlen]
  have h1 : (if decide (n < 0) = true then -(n.natAbs : Int) else (n.natAbs : Int)) = n := by
    by_cases hneg : n < 0
    · rw [if_pos (decide_eq_true hneg)]
      omega
    · rw [if_neg (by simpa using hneg)]
      omega
  rw [h1]
  norm_num

/-- The precision the parser records from a canonical fixed-point
rendering is the requested fraction width. -/
theorem DecimalPrecisionOf_fixedToChars (x : LongDouble) {q : Nat} (hq : 0 < q) :
    DecimalPrecisionOf (FixedToChars x q) = q := by
  set n := ScaleRound x.mant (x.exp10 + (q : Int)) with hn
  have hfx : FixedToChars x q =
      ((if n < 0 then ['-'] else []) ++ NatToChars (n.natAbs / 10 ^ q)) ++
        '.' :: PadZeros q (NatToChars (n.natAbs % 10 ^ q)) := by
    simp only [FixedToChars, ← hn, if_neg (by omega : ¬q = 0)]
  have hdot : '.' ∉ PadZeros q (NatToChars (n.natAbs % 10 ^ q)) := fun hc =>
    isDigit_ne_dot (PadZeros_digits (NatToChars_digits _) _ hc) rfl
  rw [hfx, DecimalPrecisionOf, FindLastDot_append _ hdot]
  simp only [List.length_append, List.length_cons]
  rw [PadZeros_length (NatToChars_length_le (Nat.mod_lt _ (pow_pos (by norm_num) q)) hq)]
  omega

/-- Every character of a rendered integer is a sign or a digit. -/
theorem IntToChars_mem {n : Int} {c : Char} (h : c ∈ IntToChars n) : c ∈ '-' :: digitChars := by
  unfold IntToChars at h
  split at h
  · rcases List.mem_cons.mp h with rfl | h2
    · exact List.mem_cons_self _ _
    · exact List.mem_cons_of_mem _ (NatToChars_mem h2)
  · exact List.mem_cons_of_mem _ (NatToChars_mem h)

/-- Every character of a zero-padded digit string is a digit character. -/
theorem PadZeros_mem {p : Nat} {ds : List Char} (hds : ∀ c ∈ ds, c ∈ digitChars) :
    ∀ c ∈ PadZeros p ds, c ∈ digitChars := by
  intro c hc
  rcases List.mem_append.mp hc with hc | hc
  · rw [List.eq_of_mem_replicate hc]
    decide
  · exact hds c hc

/-- Every character of a fixed-point rendering is a sign, a dot, or a
digit. -/
theorem FixedToChars_mem {x : LongDouble} {q : Nat} {c : Char} (h : c ∈ FixedToChars x q) :
    c ∈ '-' :: '.' :: digitChars := by
  simp only [FixedToChars] at h
  rcases List.mem_append.mp h with h | h
  · rcases List.mem_append.mp h with h | h
    · split at h
      · rw [List.mem_singleton.mp h]
        decide
      · cases h
    · exact List.mem_cons_of_mem _ (List.mem_cons_of_mem _ (NatToChars_mem h))
  · split at h
    · cases h
    · rcases List.mem_cons.mp h with rfl | h2
      · decide
      · exact List.mem_cons_of_mem _ (List.mem_cons_of_mem _
          (PadZeros_mem (fun c hc => NatToChars_mem hc) c h2))

/-- A token without a dot is not a valid decimal. -/
theorem IsValidDecimal_eq_false {tok : List Char} (h : '.' ∉ tok) :
    IsValidDecimal tok = false := by
  cases hx : IsValidDecimal tok
  · rfl
  · simp only [IsValidDecimal, List.any_eq_true, beq_iff_eq] at hx
    obtain ⟨c, hc, rfl⟩ := hx
    exact absurd hc h

/-- A token with a dot is a valid decimal. -/
theorem IsValidDecimal_eq_true {tok : List Char} (h : '.' ∈ tok) :
    IsValidDecimal tok = true := by
  simp only [IsValidDecimal, List.any_eq_true, beq_iff_eq]
  exact ⟨'.', h, rfl⟩

/-- A token drawn from `validChars` passes the number character check. -/
theorem IsValidNumber_of_mem {tok : List Char} (h : ∀ c ∈ tok, validChars.contains c = true) :
    IsValidNumber tok = true := by
  simp only [IsValidNumber, List.all_eq_true]
  exact h

/-- `ParseNumberElement` on a rendered in-range integer re-reads it
exactly. -/
theorem ParseNumberElement_intToChars {n : Int} (key : List Char)
    (h1 : -(2 ^ 63) ≤ n) (h2 : n ≤ 2 ^ 63 - 1) :
    ParseNumberElement (IntToChars n) key = .ok (.NumberInt key n) := by
  have hdot : '.' ∉ IntToChars n := fun hc => by
    have hm := IntToChars_mem hc
    revert hm
    decide
  unfold ParseNumberElement
  rw [IsValidDecimal_eq_false hdot]
  simp only [Bool.false_eq_true, if_false]
  rw [Stoll_intToChars h1 h2]

/-- `ParseNumberElement` on a fixed-point rendering yields the exact
decimal with the fraction width as recorded precision. -/
theorem ParseNumberElement_fixedToChars (x : LongDouble) {q : Nat} (key : List Char)
    (hq : 0 < q) :
    ParseNumberElement (FixedToChars x q) key =
      .ok (.NumberDec key ⟨ScaleRound x.mant (x.exp10 + q), -(q : Int)⟩ q) := by
  have hdot : '.' ∈ FixedToChars x q := by
    simp only [FixedToChars, if_neg (by omega : ¬q = 0)]
    simp
  unfold ParseNumberElement
  rw [IsValidDecimal_eq_true hdot]
  simp only [if_true]
  rw [Stold_fixedToChars x hq, DecimalPrecisionOf_fixedToChars x hq]

/-- Rendering always splits into the key prefix and the body. -/
theorem ElementToString_eq (t : JSONElement) :
    ElementToString t = FormatKey t.key ++ BodyText t := by
  cases t <;> simp [ElementToString, BodyText, JSONElement.key, List.append_assoc]

/-- Scaling by `10^0` is the identity. -/
theorem ScaleRound_zero (m : Int) : ScaleRound m 0 = m := by
  simp [ScaleRound]

/-- The fixed-point rendering of the exact decimal a fixed-point
rendering denotes is that same rendering. -/
theorem FixedToChars_normalize (x : LongDouble) (q : Nat) :
    FixedToChars ⟨ScaleRound x.mant (x.exp10 + (q : Int)), -(q : Int)⟩ q = FixedToChars x q := by
  simp only [FixedToChars]
  norm_num [ScaleRound_zero]

mutual

/-- Serialization is invariant under the reparse normalization. -/
theorem ElementToString_normalize : ∀ t, ElementToString (NormalizeElement t) = ElementToString t
  | .ObjectElement k cs => by
    simp only [NormalizeElement, ElementToString, ChildrenToString_normalize cs]
  | .ArrayElement k xs => by
    simp only [NormalizeElement, ElementToString, ChildrenToString_normalize xs]
  | .StringElement k v => rfl
  | .NumberInt k n => rfl
  | .NumberDec k x p => by
    by_cases hp : 0 < p
    · simp only [NormalizeElement, if_pos hp, ElementToString, FixedToChars_normalize]
    · have hfix := FixedToChars_normalize x 6
      norm_num at hfix
      simp only [NormalizeElement, if_neg hp, ElementToString,
        if_pos (by norm_num : (0 : Nat) < 6), hfix]
  | .BoolElement k b => rfl
  | .NullElement k => rfl

/-- The list side of `ElementToString_normalize`. -/
theorem ChildrenToString_normalize :
    ∀ cs, ChildrenToString (NormalizeList cs) = ChildrenToString cs
  | [] => rfl
  | [c] => by
    simp only [NormalizeList, ChildrenToString, ElementToString_normalize c]
  | c :: c2 :: cs => by
    have h2 := ChildrenToString_normalize (c2 :: cs)
    simp only [NormalizeList] at h2
    simp only [NormalizeList, ChildrenToString, ElementToString_normalize c, h2]

end

/-- The value dispatcher on a non-empty numeral-charset token that is not
quote-led and not a literal: it always lands in the Number production. -/
theorem Parse_number_dispatch (f : Nat) (ci : Bool) (rest : List Tok) (key : List Char)
    {tok : Tok} (hnum : IsValidNumber tok = true) (hne : tok ≠ []) :
    Parse (f + 1) ci (tok :: rest) key =
      match ParseNumberElement tok key with
      | .error e => .error e
      | .ok n => .ok (some n, rest) := by
  match tok, hne with
  | c :: t, _ =>
    have hall := hnum
    simp only [IsValidNumber, List.all_cons, Bool.and_eq_true] at hall
    obtain ⟨hc, -⟩ := hall
    obtain ⟨ht, hf, hn, hdq, hlbr, hsq⟩ := validChars_head_facts c hc
    have h1 : ¬(c :: t = [lbr]) := by intro h; cases h; exact hlbr rfl
    have h2 : ¬(c :: t = ['[']) := by intro h; cases h; exact hsq rfl
    have h3 : ¬(0 < (c :: t).length ∧ (c :: t).head? = some dq) := by
      rintro ⟨-, hh⟩
      exact hdq (by simpa using hh)
    have h4 : EqualIgnoreCase (c :: t) litTrue = false := EqualIgnoreCase_head_false ht _ _
    have h5 : EqualIgnoreCase (c :: t) litFalse = false := EqualIgnoreCase_head_false hf _ _
    have h6 : EqualIgnoreCase (c :: t) litNull = false := EqualIgnoreCase_head_false hn _ _
    simp only [Parse, if_neg h1, if_neg h2, if_neg h3, h4, h5, h6, Bool.or_self,
      Bool.false_eq_true, if_false, hnum, if_true]

/-- A cons list whose head differs is not that singleton. -/
theorem cons_ne_singleton {c x : Char} (h : c ≠ x) (l : List Char) : c :: l ≠ [x] := by
  intro he
  injection he with h1 h2
  exact h h1

/-- A list drawn from a character set avoiding `x` is not `[x]`. -/
theorem tok_ne_singleton {tok S : List Char} (hmem : ∀ c ∈ tok, c ∈ S) {x : Char}
    (hx : x ∉ S) : tok ≠ [x] := by
  intro he
  refine hx (hmem x ?_)
  rw [he]
  simp

/-- An `isEmpty = true` list is nil. -/
theorem eq_nil_of_isEmpty {l : List Char} (h : l.isEmpty = true) : l = [] := by
  cases l
  · rfl
  · cases h

/-- An `isEmpty = false` list is non-nil. -/
theorem ne_nil_of_isEmpty_false {l : List Char} (h : l.isEmpty = false) : l ≠ [] := by
  intro h2
  subst h2
  cases h

/-- The delimiter facts of a canonical quote-delimited token. -/
theorem quoted_tok_facts {v : List Char} (hv : v ≠ []) :
    2 < (dq :: (v ++ [dq])).length ∧ (dq :: (v ++ [dq])).head? = some dq ∧
      (dq :: (v ++ [dq])).getLast? = some dq := by
  refine ⟨?_, rfl, ?_⟩
  · have := List.length_pos.mpr hv
    simp only [List.length_cons, List.length_append, List.length_singleton]
    omega
  · rw [show dq :: (v ++ [dq]) = (dq :: v) ++ [dq] by simp]
    exact List.getLast?_concat _

/-- `ParseStringElement` on a canonical quoted token strips the quotes. -/
theorem ParseStringElement_canonical {v : List Char} (hv : v ≠ []) (key : List Char) :
    ParseStringElement (dq :: (v ++ [dq])) key = .ok (.StringElement key v) := by
  unfold ParseStringElement
  rw [if_pos (quoted_tok_facts hv), unquote_eq]

/-- `ParseKey` on a canonical quoted key token followed by a colon. -/
theorem ParseKey_canonical {k : List Char} (hk : k ≠ []) (r : List Tok) :
    ParseKey ((dq :: (k ++ [dq])) :: [':'] :: r) = .ok (k, r) := by
  simp only [ParseKey]
  rw [if_pos (quoted_tok_facts hk), if_pos trivial, unquote_eq]

/-- A rendered integer is non-empty. -/
theorem IntToChars_ne_nil (n : Int) : IntToChars n ≠ [] := by
  unfold IntToChars
  split
  · simp
  · exact NatToChars_ne_nil _

/-- A fixed-point rendering is non-empty. -/
theorem FixedToChars_ne_nil (x : LongDouble) (q : Nat) : FixedToChars x q ≠ [] := by
  unfold FixedToChars
  intro h
  simp only [List.append_eq_nil] at h
  exact NatToChars_ne_nil _ h.1.2

/-- A rendered integer passes the numeral character check. -/
theorem IsValidNumber_intToChars (n : Int) : IsValidNumber (IntToChars n) = true := by
  have hfact : ∀ c ∈ '-' :: digitChars, validChars.contains c = true := by decide
  exact IsValidNumber_of_mem fun c hc => hfact c (IntToChars_mem hc)

/-- A fixed-point rendering passes the numeral character check. -/
theorem IsValidNumber_fixedToChars (x : LongDouble) (q : Nat) :
    IsValidNumber (FixedToChars x q) = true := by
  have hfact : ∀ c ∈ '-' :: '.' :: digitChars, validChars.contains c = true := by decide
  exact IsValidNumber_of_mem fun c hc => hfact c (FixedToChars_mem hc)

/-- The leading token of a serialized body is never a separator or a
closing bracket. -/
theorem BodyToks_cons (t : JSONElement) : ∃ tok toks, BodyToks t = tok :: toks ∧
    tok ≠ [','] ∧ tok ≠ [']'] ∧ tok ≠ [rbr] := by
  cases t with
  | ObjectElement k cs =>
    exact ⟨[lbr], _, rfl, by decide, by decide, by decide⟩
  | ArrayElement k xs =>
    exact ⟨['['], _, rfl, by decide, by decide, by decide⟩
  | StringElement k v =>
    refine ⟨_, _, rfl, ?_, ?_, ?_⟩ <;>
      exact cons_ne_singleton (by decide) _
  | NumberInt k n =>
    refine ⟨_, _, rfl, ?_, ?_, ?_⟩ <;>
      exact tok_ne_singleton (fun c hc => IntToChars_mem hc) (by decide)
  | NumberDec k x p =>
    by_cases hp : 0 < p
    · refine ⟨FixedToChars x p, [], ?_, ?_, ?_, ?_⟩
      · simp only [BodyToks, if_pos hp]
      all_goals exact tok_ne_singleton (fun c hc => FixedToChars_mem hc) (by decide)
    · refine ⟨FixedToChars x 6, [], ?_, ?_, ?_, ?_⟩
      · simp only [BodyToks, if_neg hp]
      all_goals exact tok_ne_singleton (fun c hc => FixedToChars_mem hc) (by decide)
  | BoolElement k b =>
    cases b
    · exact ⟨_, _, rfl, by decide, by decide, by decide⟩
    · exact ⟨_, _, rfl, by decide, by decide, by decide⟩
  | NullElement k =>
    exact ⟨_, _, rfl, by decide, by decide, by decide⟩

mutual

/-- Re-parsing the canonical token stream of a well-formed element (with
arbitrary trailing tokens) yields the normalized element and exactly the
trailing tokens, under the element's own key. -/
theorem rt_parse : ∀ f ci t rest, WFElement t = true →
    2 * (BodyToks t).length ≤ f →
    Parse f ci (BodyToks t ++ rest) t.key = .ok (some (NormalizeElement t), rest)
  | f, ci, .ObjectElement k cs, rest => by
    intro hwf hfuel
    simp only [WFElement] at hwf
    simp only [BodyToks, List.length_cons, List.length_append,
      List.length_singleton] at hfuel
    obtain ⟨g, rfl⟩ : ∃ g, f = g + 1 + 1 := ⟨f - 2, by omega⟩
    simp only [BodyToks, JSONElement.key, List.cons_append, List.append_assoc,
      List.singleton_append, List.nil_append]
    rw [Parse, if_pos rfl, ParseObjectElement, if_pos rfl]
    rw [rt_objLoop g ci cs rest hwf (by omega)]
    simp [NormalizeElement]
  | f, ci, .ArrayElement k xs, rest => by
    intro hwf hfuel
    simp only [WFElement] at hwf
    simp only [BodyToks, List.length_cons, List.length_append,
      List.length_singleton] at hfuel
    obtain ⟨g, rfl⟩ : ∃ g, f = g + 1 + 1 := ⟨f - 2, by omega⟩
    simp only [BodyToks, JSONElement.key, List.cons_append, List.append_assoc,
      List.singleton_append, List.nil_append]
    rw [Parse, if_neg (by decide), if_pos rfl, ParseArrayElement, if_pos rfl]
    rw [rt_arrLoop g ci xs rest hwf (by omega)]
    simp [NormalizeElement]
  | f, ci, .StringElement k v, rest => by
    intro hwf hfuel
    simp only [WFElement, Bool.and_eq_true, Bool.not_eq_true'] at hwf
    obtain ⟨hvne, -⟩ := hwf
    have hv : v ≠ [] := ne_nil_of_isEmpty_false hvne
    simp only [BodyToks, List.length_singleton] at hfuel
    obtain ⟨g, rfl⟩ : ∃ g, f = g + 1 := ⟨f - 1, by omega⟩
    simp only [BodyToks, JSONElement.key, List.cons_append, List.singleton_append, List.nil_append]
    rw [Parse, if_neg (cons_ne_singleton (by decide) _),
      if_neg (cons_ne_singleton (by decide) _), if_pos ⟨by simp, rfl⟩,
      ParseStringElement_canonical hv k]
    simp [NormalizeElement]
  | f, ci, .NumberInt k n, rest => by
    intro hwf hfuel
    simp only [WFElement, Bool.and_eq_true, decide_eq_true_eq] at hwf
    simp only [BodyToks, List.length_singleton] at hfuel
    obtain ⟨g, rfl⟩ : ∃ g, f = g + 1 := ⟨f - 1, by omega⟩
    simp only [BodyToks, JSONElement.key, List.cons_append, List.singleton_append, List.nil_append]
    rw [Parse_number_dispatch g ci rest k (IsValidNumber_intToChars n) (IntToChars_ne_nil n),
      ParseNumberElement_intToChars k hwf.1 hwf.2]
    simp [NormalizeElement]
  | f, ci, .NumberDec k x p, rest => by
    intro hwf hfuel
    simp only [BodyToks, List.length_singleton] at hfuel
    obtain ⟨g, rfl⟩ : ∃ g, f = g + 1 := ⟨f - 1, by omega⟩
    by_cases hp : 0 < p
    · simp only [BodyToks, JSONElement.key, if_pos hp, List.cons_append,
        List.singleton_append, List.nil_append]
      rw [Parse_number_dispatch g ci rest k (IsValidNumber_fixedToChars x p)
        (FixedToChars_ne_nil x p), ParseNumberElement_fixedToChars x k hp]
      simp [NormalizeElement, if_pos hp]
    · simp only [BodyToks, JSONElement.key, if_neg hp, List.cons_append,
        List.singleton_append, List.nil_append]
      rw [Parse_number_dispatch g ci rest k (IsValidNumber_fixedToChars x 6)
        (FixedToChars_ne_nil x 6), ParseNumberElement_fixedToChars x k (by norm_num)]
      norm_num [NormalizeElement, if_neg hp]
  | f, ci, .BoolElement k b, rest => by
    intro hwf hfuel
    simp only [BodyToks, List.length_singleton] at hfuel
    obtain ⟨g, rfl⟩ : ∃ g, f = g + 1 := ⟨f - 1, by omega⟩
    cases b
    · simp only [BodyToks, JSONElement.key, Bool.false_eq_true, if_false,
        List.cons_append, List.singleton_append, List.nil_append]
      rw [Parse, if_neg (by decide), if_neg (by decide), if_neg (by decide),
        show (EqualIgnoreCase litFalse litTrue || EqualIgnoreCase litFalse litFalse) = true
          from by decide,
        if_pos rfl, if_neg (fun hcond => hcond.2.2 rfl)]
      simp [NormalizeElement, show (litFalse.head? == some 't') = false from by decide]
    · simp only [BodyToks, JSONElement.key, if_true, List.cons_append, List.singleton_append, List.nil_append]
      rw [Parse, if_neg (by decide), if_neg (by decide), if_neg (by decide),
        show (EqualIgnoreCase litTrue litTrue || EqualIgnoreCase litTrue litFalse) = true
          from by decide,
        if_pos rfl, if_neg (fun hcond => hcond.2.1 rfl)]
      simp [NormalizeElement, show (litTrue.head? == some 't') = true from by decide]
  | f, ci, .NullElement k, rest => by
    intro hwf hfuel
    simp only [BodyToks, List.length_singleton] at hfuel
    obtain ⟨g, rfl⟩ : ∃ g, f = g + 1 := ⟨f - 1, by omega⟩
    simp only [BodyToks, JSONElement.key, List.cons_append, List.singleton_append, List.nil_append]
    rw [Parse, if_neg (by decide), if_neg (by decide), if_neg (by decide),
      show (EqualIgnoreCase litNull litTrue || EqualIgnoreCase litNull litFalse) = false
        from by decide]
    rw [if_neg (by decide), show EqualIgnoreCase litNull litNull = true from by decide,
      if_pos rfl, if_neg (fun hcond => hcond.2 rfl)]
    simp [NormalizeElement]

/-- The object member loop on the canonical tokens of a well-formed
member list followed by `}`. -/
theorem rt_objLoop : ∀ f ci cs rest, WFMembers cs = true →
    2 * (MembersToks cs).length + 2 ≤ f →
    ObjectLoop f ci (MembersToks cs ++ [rbr] :: rest) = .ok (NormalizeList cs, rest)
  | f, ci, [], rest => by
    intro hwf hfuel
    obtain ⟨g, rfl⟩ : ∃ g, f = g + 1 := ⟨f - 1, by omega⟩
    simp only [MembersToks, List.nil_append]
    rw [ObjectLoop, if_pos rfl]
    simp [NormalizeList]
  | f, ci, [c], rest => by
    intro hwf hfuel
    simp only [WFMembers, Bool.and_eq_true, Bool.not_eq_true'] at hwf
    obtain ⟨⟨⟨hkne0, -⟩, hcwf⟩, -⟩ := hwf
    have hkne : c.key ≠ [] := ne_nil_of_isEmpty_false hkne0
    simp only [MembersToks, List.length_cons] at hfuel
    obtain ⟨g, rfl⟩ : ∃ g, f = g + 1 + 1 := ⟨f - 2, by omega⟩
    simp only [MembersToks, List.cons_append, List.append_assoc, List.nil_append]
    rw [ObjectLoop, if_neg (cons_ne_singleton (by decide) _),
      if_neg (cons_ne_singleton (by decide) _),
      ParseKey_canonical hkne (BodyToks c ++ [rbr] :: rest)]
    simp only []
    rw [rt_parse (g + 1) ci c ([rbr] :: rest) hcwf (by omega)]
    simp only []
    rw [if_pos (by decide), ObjectLoop, if_pos rfl]
    simp [NormalizeList]
  | f, ci, c :: c2 :: cs', rest => by
    intro hwf hfuel
    simp only [WFMembers, Bool.and_eq_true, Bool.not_eq_true'] at hwf
    obtain ⟨⟨⟨hkne0, -⟩, hcwf⟩, htail⟩ := hwf
    have hkne : c.key ≠ [] := ne_nil_of_isEmpty_false hkne0
    have htail' : WFMembers (c2 :: cs') = true := by
      simp only [WFMembers, Bool.and_eq_true, Bool.not_eq_true']
      exact htail
    simp only [MembersToks, List.length_cons, List.length_append] at hfuel
    obtain ⟨g, rfl⟩ : ∃ g, f = g + 1 + 1 := ⟨f - 2, by omega⟩
    simp only [MembersToks, List.cons_append, List.append_assoc, List.nil_append]
    rw [ObjectLoop, if_neg (cons_ne_singleton (by decide) _),
      if_neg (cons_ne_singleton (by decide) _),
      ParseKey_canonical hkne (BodyToks c ++ [','] :: (MembersToks (c2 :: cs') ++ [rbr] :: rest))]
    simp only []
    rw [rt_parse (g + 1) ci c ([','] :: (MembersToks (c2 :: cs') ++ [rbr] :: rest)) hcwf
      (by omega)]
    simp only []
    rw [if_pos (by decide), ObjectLoop, if_neg (by decide), if_pos rfl]
    rw [rt_objLoop g ci (c2 :: cs') rest htail' (by omega)]
    simp [NormalizeList]

/-- The array item loop on the canonical tokens of a well-formed item
list followed by `]`. -/
theorem rt_arrLoop : ∀ f ci xs rest, WFItems xs = true →
    2 * (ItemsToks xs).length + 2 ≤ f →
    ArrayLoop f ci (ItemsToks xs ++ [']'] :: rest) = .ok (NormalizeList xs, rest)
  | f, ci, [], rest => by
    intro hwf hfuel
    obtain ⟨g, rfl⟩ : ∃ g, f = g + 1 := ⟨f - 1, by omega⟩
    simp only [ItemsToks, List.nil_append]
    rw [ArrayLoop, if_pos rfl]
    simp [NormalizeList]
  | f, ci, [x], rest => by
    intro hwf hfuel
    simp only [WFItems, Bool.and_eq_true] at hwf
    obtain ⟨⟨hxkey, hxwf⟩, -⟩ := hwf
    have hxk : x.key = [] := eq_nil_of_isEmpty hxkey
    simp only [ItemsToks] at hfuel
    obtain ⟨g, rfl⟩ : ∃ g, f = g + 1 + 1 := ⟨f - 2, by omega⟩
    simp only [ItemsToks]
    obtain ⟨tok, toks, hbt, hcomma, hrsq, -⟩ := BodyToks_cons x
    rw [hbt, List.cons_append, ArrayLoop, if_neg hrsq, if_neg hcomma, ← List.cons_append,
      ← hbt]
    have hparse := rt_parse (g + 1) ci x ([']'] :: rest) hxwf (by omega)
    rw [hxk] at hparse
    rw [hparse]
    simp only []
    rw [if_pos (by decide), ArrayLoop, if_pos rfl]
    simp [NormalizeList]
  | f, ci, x :: x2 :: xs', rest => by
    intro hwf hfuel
    simp only [WFItems, Bool.and_eq_true] at hwf
    obtain ⟨⟨hxkey, hxwf⟩, htail⟩ := hwf
    have hxk : x.key = [] := eq_nil_of_isEmpty hxkey
    have htail' : WFItems (x2 :: xs') = true := by
      simp only [WFItems, Bool.and_eq_true]
      exact htail
    simp only [ItemsToks, List.length_cons, List.length_append] at hfuel
    obtain ⟨g, rfl⟩ : ∃ g, f = g + 1 + 1 := ⟨f - 2, by omega⟩
    simp only [ItemsToks, List.cons_append, List.append_assoc, List.nil_append]
    obtain ⟨tok, toks, hbt, hcomma, hrsq, -⟩ := BodyToks_cons x
    rw [hbt, List.cons_append, ArrayLoop, if_neg hrsq, if_neg hcomma, ← List.cons_append,
      ← hbt]
    have hparse := rt_parse (g + 1) ci x ([','] :: (ItemsToks (x2 :: xs') ++ [']'] :: rest))
      hxwf (by omega)
    rw [hxk] at hparse
    rw [hparse]
    simp only []
    rw [if_pos (by decide), ArrayLoop, if_neg (by decide), if_pos rfl]
    rw [rt_arrLoop g ci (x2 :: xs') rest htail' (by omega)]
    simp [NormalizeList]

end

/-- Lexing is monotone in fuel: a successful run stays successful with
more fuel. -/
theorem LexF_mono : ∀ f s toks, LexF f s = .ok toks → ∀ k, LexF (f + k) s = .ok toks := by
  intro f
  induction f with
  | zero =>
    intro s toks h k
    rw [LexF] at h
    cases h
  | succ f ih =>
    intro s toks h k
    have hk : f + 1 + k = (f + k) + 1 := by omega
    rw [hk]
    match s with
    | [] =>
      rw [LexF] at h ⊢
      exact h
    | c :: rest =>
      rw [LexF] at h ⊢
      by_cases hws : wsChars.contains c = true
      · rw [if_pos hws] at h ⊢
        exact ih rest toks h k
      · rw [if_neg hws] at h ⊢
        by_cases hst : structuralChars.contains c = true
        · rw [if_pos hst] at h ⊢
          cases hrec : LexF f rest with
          | error e => rw [hrec] at h; cases h
          | ok toks2 =>
            rw [hrec] at h
            rw [ih rest toks2 hrec k]
            exact h
        · rw [if_neg hst] at h ⊢
          by_cases hdq : c = dq
          · rw [if_pos hdq] at h ⊢
            cases hfq : FindClosingQuotationMark dq rest with
            | none => rw [hfq] at h; cases h
            | some pr =>
              obtain ⟨content, r⟩ := pr
              rw [hfq] at h
              simp only [] at h ⊢
              cases hrec : LexF f r with
              | error e => rw [hrec] at h; cases h
              | ok toks2 =>
                rw [hrec] at h
                rw [ih r toks2 hrec k]
                exact h
          · rw [if_neg hdq] at h ⊢
            cases hfc : FindClosingCharacter (c :: rest) with
            | none => rw [hfc] at h; cases h
            | some pr =>
              obtain ⟨tok, r⟩ := pr
              rw [hfc] at h
              simp only [] at h ⊢
              cases hrec : LexF f r with
              | error e => rw [hrec] at h; cases h
              | ok toks2 =>
                rw [hrec] at h
                rw [ih r toks2 hrec k]
                exact h

/-- A bare token followed by a closing character splits exactly there. -/
theorem FindClosingCharacter_token {tok : List Char} (r : List Char) {c0 : Char}
    (hmem : ∀ c ∈ tok, closingChars.contains c = false)
    (hc0 : closingChars.contains c0 = true) :
    FindClosingCharacter (tok ++ c0 :: r) = some (tok, c0 :: r) := by
  rw [FindClosingCharacter_eq]
  have hmem' : ∀ c ∈ tok, (fun c => !closingChars.contains c) c = true := fun c hc => by
    simp only [hmem c hc, Bool.not_false]
  have hscan : BareTokenScan (tok ++ c0 :: r) = tok := by
    unfold BareTokenScan
    rw [takeWhile_all_append _ _ hmem', List.takeWhile_cons, hc0]
    simp
  have hrest : BareTokenRest (tok ++ c0 :: r) = c0 :: r := by
    unfold BareTokenRest
    rw [dropWhile_all_append _ _ hmem', List.dropWhile_cons, hc0]
    simp
  rw [hscan, hrest, if_neg (by simp)]

/-- One lexer step on a structural character. -/
theorem LexF_structural_step {c : Char} {f : Nat} {rest : List Char} {toks : List Tok}
    (hws : wsChars.contains c = false) (hst : structuralChars.contains c = true)
    (h : LexF f rest = .ok toks) :
    LexF (f + 1) (c :: rest) = .ok ([c] :: toks) := by
  rw [LexF, if_neg (by rw [hws]; simp), if_pos hst, h]

/-- One lexer step on a well-formed quoted token. -/
theorem LexF_quote_step {v : List Char} {f : Nat} {rest : List Char} {toks : List Tok}
    (hco : ContentOk dq v = true) (h : LexF f rest = .ok toks) :
    LexF (f + 1) (dq :: (v ++ dq :: rest)) = .ok ((dq :: (v ++ [dq])) :: toks) := by
  rw [LexF, if_neg (by decide), if_neg (by decide), if_pos rfl,
    FindClosingQuotationMark_of_content hco rest]
  simp only []
  rw [h]
  rfl

/-- One lexer step on a bare token terminated by a closing character. -/
theorem LexF_bare_step {tok : List Char} {c0 : Char} {f : Nat} {r : List Char} {toks : List Tok}
    (hmem : ∀ c ∈ tok, closingChars.contains c = false)
    (hhead : ∃ c t, tok = c :: t ∧ wsChars.contains c = false ∧
      structuralChars.contains c = false ∧ c ≠ dq)
    (hc0 : closingChars.contains c0 = true)
    (h : LexF f (c0 :: r) = .ok toks) :
    LexF (f + 1) (tok ++ c0 :: r) = .ok (tok :: toks) := by
  obtain ⟨c, t, rfl, hws, hst, hdq⟩ := hhead
  rw [List.cons_append, LexF, if_neg (by rw [hws]; simp), if_neg (by rw [hst]; simp),
    if_neg hdq, ← List.cons_append, FindClosingCharacter_token r hmem hc0]
  simp only []
  rw [h]

/-- Lexing a bare token (fuel charged per character). -/
theorem lex_bare_tok {tok : List Char} {c0 : Char} {g : Nat} {r : List Char} {toks : List Tok}
    (hne : tok ≠ [])
    (hfacts : ∀ c ∈ tok, closingChars.contains c = false ∧ wsChars.contains c = false ∧
      structuralChars.contains c = false ∧ c ≠ dq)
    (hc0 : closingChars.contains c0 = true)
    (h : LexF g (c0 :: r) = .ok toks) :
    LexF (g + tok.length) (tok ++ c0 :: r) = .ok (tok :: toks) := by
  match tok, hne with
  | c :: t, _ =>
    have h1 := LexF_bare_step (fun c hc => (hfacts c hc).1)
      ⟨c, t, rfl, (hfacts c (by simp)).2.1, (hfacts c (by simp)).2.2.1,
        (hfacts c (by simp)).2.2.2⟩ hc0 h
    have h2 := LexF_mono (g + 1) _ _ h1 t.length
    have e1 : g + 1 + t.length = g + (c :: t).length := by
      simp only [List.length_cons]
      omega
    rw [e1] at h2
    exact h2

/-- Character-class facts for the numeral characters. -/
theorem numeral_chars_facts : ∀ c ∈ '-' :: '.' :: digitChars,
    closingChars.contains c = false ∧ wsChars.contains c = false ∧
    structuralChars.contains c = false ∧ c ≠ dq := by decide

/-- `IntToChars` membership in the wider numeral character set. -/
theorem IntToChars_mem' {n : Int} {c : Char} (h : c ∈ IntToChars n) :
    c ∈ '-' :: '.' :: digitChars := by
  rcases List.mem_cons.mp (IntToChars_mem h) with rfl | h2
  · simp
  · simp [h2]

mutual

/-- Lexing the serialized body of a well-formed element recovers the
canonical tokens; if the body ends in a bare value, the following text
must start with a closing character. -/
theorem lex_body : ∀ t rest g toks, WFElement t = true →
    (EndsBare t = true → ∃ c r, rest = c :: r ∧ closingChars.contains c = true) →
    LexF g rest = .ok toks →
    LexF (g + (BodyText t).length) (BodyText t ++ rest) = .ok (BodyToks t ++ toks)
  | .ObjectElement k cs, rest, g, toks => by
    intro hwf hstop h
    simp only [WFElement] at hwf
    have h1 : LexF (g + 1) (rbr :: rest) = .ok ([rbr] :: toks) :=
      LexF_structural_step (by decide) (by decide) h
    have h2 := lex_members cs (rbr :: rest) (g + 1) ([rbr] :: toks) hwf
      ⟨rbr, rest, rfl, by decide⟩ h1
    have h3 := @LexF_structural_step lbr _ _ _ (by decide) (by decide) h2
    have e1 : g + 1 + (ChildrenToString cs).length + 1 =
        g + (BodyText (.ObjectElement k cs)).length := by
      simp [BodyText]
      omega
    rw [e1] at h3
    simpa [BodyText, BodyToks, List.cons_append, List.append_assoc,
      List.singleton_append] using h3
  | .ArrayElement k xs, rest, g, toks => by
    intro hwf hstop h
    simp only [WFElement] at hwf
    have h1 : LexF (g + 1) (']' :: rest) = .ok ([']'] :: toks) :=
      LexF_structural_step (by decide) (by decide) h
    have h2 := lex_items xs (']' :: rest) (g + 1) ([']'] :: toks) hwf
      ⟨']', rest, rfl, by decide⟩ h1
    have h3 := @LexF_structural_step '[' _ _ _ (by decide) (by decide) h2
    have e1 : g + 1 + (ChildrenToString xs).length + 1 =
        g + (BodyText (.ArrayElement k xs)).length := by
      simp [BodyText]
      omega
    rw [e1] at h3
    simpa [BodyText, BodyToks, List.cons_append, List.append_assoc,
      List.singleton_append] using h3
  | .StringElement k v, rest, g, toks => by
    intro hwf hstop h
    simp only [WFElement, Bool.and_eq_true, Bool.not_eq_true'] at hwf
    obtain ⟨-, hco⟩ := hwf
    have h1 := LexF_quote_step hco h
    have h2 := LexF_mono (g + 1) _ _ h1 (v.length + 1)
    have e1 : g + 1 + (v.length + 1) = g + (BodyText (.StringElement k v)).length := by
      simp [BodyText]
      omega
    rw [e1] at h2
    simpa [BodyText, BodyToks, List.cons_append, List.append_assoc] using h2
  | .NumberInt k n, rest, g, toks => by
    intro hwf hstop h
    obtain ⟨c0, r, rfl, hc0⟩ := hstop rfl
    have hfacts : ∀ c ∈ IntToChars n, closingChars.contains c = false ∧
        wsChars.contains c = false ∧ structuralChars.contains c = false ∧ c ≠ dq :=
      fun c hc => numeral_chars_facts c (IntToChars_mem' hc)
    have h1 := lex_bare_tok (IntToChars_ne_nil n) hfacts hc0 h
    simpa [BodyText, BodyToks] using h1
  | .NumberDec k x p, rest, g, toks => by
    intro hwf hstop h
    obtain ⟨c0, r, rfl, hc0⟩ := hstop rfl
    by_cases hp : 0 < p
    · have h1 := lex_bare_tok (FixedToChars_ne_nil x p)
        (fun c hc => numeral_chars_facts c (FixedToChars_mem hc)) hc0 h
      simpa [BodyText, BodyToks, if_pos hp] using h1
    · have h1 := lex_bare_tok (FixedToChars_ne_nil x 6)
        (fun c hc => numeral_chars_facts c (FixedToChars_mem hc)) hc0 h
      simpa [BodyText, BodyToks, if_neg hp] using h1
  | .BoolElement k b, rest, g, toks => by
    intro hwf hstop h
    obtain ⟨c0, r, rfl, hc0⟩ := hstop rfl
    cases b
    · have h1 := @lex_bare_tok litFalse c0 g r toks (by decide) (by decide) hc0 h
      simpa [BodyText, BodyToks] using h1
    · have h1 := @lex_bare_tok litTrue c0 g r toks (by decide) (by decide) hc0 h
      simpa [BodyText, BodyToks] using h1
  | .NullElement k, rest, g, toks => by
    intro hwf hstop h
    obtain ⟨c0, r, rfl, hc0⟩ := hstop rfl
    have h1 := @lex_bare_tok litNull c0 g r toks (by decide) (by decide) hc0 h
    simpa [BodyText, BodyToks] using h1

/-- Lexing a serialized member list followed by closing-headed text. -/
theorem lex_members : ∀ cs rest g toks, WFMembers cs = true →
    (∃ c r, rest = c :: r ∧ closingChars.contains c = true) →
    LexF g rest = .ok toks →
    LexF (g + (ChildrenToString cs).length) (ChildrenToString cs ++ rest) =
      .ok (MembersToks cs ++ toks)
  | [], rest, g, toks => by
    intro hwf hrest h
    simpa [ChildrenToString, MembersToks] using h
  | [c], rest, g, toks => by
    intro hwf hrest h
    simp only [WFMembers, Bool.and_eq_true, Bool.not_eq_true'] at hwf
    obtain ⟨⟨⟨hkne0, hkco⟩, hcwf⟩, -⟩ := hwf
    have hkne : c.key ≠ [] := ne_nil_of_isEmpty_false hkne0
    have hb := lex_body c rest g toks hcwf (fun _ => hrest) h
    have hcol := @LexF_structural_step ':' _ _ _ (by decide) (by decide) hb
    have hq := LexF_quote_step hkco hcol
    have hm := LexF_mono _ _ _ hq (c.key.length + 1)
    have e1 : g + (BodyText c).length + 1 + 1 + (c.key.length + 1) =
        g + (ChildrenToString [c]).length := by
      simp [ChildrenToString, ElementToString_eq, FormatKey, if_neg hkne]
      omega
    rw [e1] at hm
    simpa [ChildrenToString, MembersToks, ElementToString_eq, FormatKey, if_neg hkne,
      List.cons_append, List.append_assoc] using hm
  | c :: c2 :: cs', rest, g, toks => by
    intro hwf hrest h
    simp only [WFMembers, Bool.and_eq_true, Bool.not_eq_true'] at hwf
    obtain ⟨⟨⟨hkne0, hkco⟩, hcwf⟩, htail⟩ := hwf
    have hkne : c.key ≠ [] := ne_nil_of_isEmpty_false hkne0
    have htail' : WFMembers (c2 :: cs') = true := by
      simp only [WFMembers, Bool.and_eq_true, Bool.not_eq_true']
      exact htail
    have hm2 := lex_members (c2 :: cs') rest g toks htail' hrest h
    have hcm := @LexF_structural_step ',' _ _ _ (by decide) (by decide) hm2
    have hb := lex_body c (',' :: (ChildrenToString (c2 :: cs') ++ rest))
      (g + (ChildrenToString (c2 :: cs')).length + 1)
      ([','] :: (MembersToks (c2 :: cs') ++ toks))
      hcwf (fun _ => ⟨',', _, rfl, by decide⟩) hcm
    have hcol := @LexF_structural_step ':' _ _ _ (by decide) (by decide) hb
    have hq := LexF_quote_step hkco hcol
    have hm := LexF_mono _ _ _ hq (c.key.length + 1)
    have e1 : g + (ChildrenToString (c2 :: cs')).length + 1 + (BodyText c).length + 1 + 1 +
        (c.key.length + 1) = g + (ChildrenToString (c :: c2 :: cs')).length := by
      simp [ChildrenToString, ElementToString_eq, FormatKey, if_neg hkne]
      omega
    rw [e1] at hm
    simpa [ChildrenToString, MembersToks, ElementToString_eq, FormatKey, if_neg hkne,
      List.cons_append, List.append_assoc] using hm

/-- Lexing a serialized item list followed by closing-headed text. -/
theorem lex_items : ∀ xs rest g toks, WFItems xs = true →
    (∃ c r, rest = c :: r ∧ closingChars.contains c = true) →
    LexF g rest = .ok toks →
    LexF (g + (ChildrenToString xs).length) (ChildrenToString xs ++ rest) =
      .ok (ItemsToks xs ++ toks)
  | [], rest, g, toks => by
    intro hwf hrest h
    simpa [ChildrenToString, ItemsToks] using h
  | [x], rest, g, toks => by
    intro hwf hrest h
    simp only [WFItems, Bool.and_eq_true] at hwf
    obtain ⟨⟨hxkey, hxwf⟩, -⟩ := hwf
    have hxk : x.key = [] := eq_nil_of_isEmpty hxkey
    have hb := lex_body x rest g toks hxwf (fun _ => hrest) h
    have e1 : ElementToString x = BodyText x := by
      rw [ElementToString_eq, hxk]
      simp [FormatKey]
    simpa [ChildrenToString, ItemsToks, e1] using hb
  | x :: x2 :: xs', rest, g, toks => by
    intro hwf hrest h
    simp only [WFItems, Bool.and_eq_true] at hwf
    obtain ⟨⟨hxkey, hxwf⟩, htail⟩ := hwf
    have hxk : x.key = [] := eq_nil_of_isEmpty hxkey
    have htail' : WFItems (x2 :: xs') = true := by
      simp only [WFItems, Bool.and_eq_true]
      exact htail
    have hm2 := lex_items (x2 :: xs') rest g toks htail' hrest h
    have hcm := @LexF_structural_step ',' _ _ _ (by decide) (by decide) hm2
    have hb := lex_body x (',' :: (ChildrenToString (x2 :: xs') ++ rest))
      (g + (ChildrenToString (x2 :: xs')).length + 1)
      ([','] :: (ItemsToks (x2 :: xs') ++ toks))
      hxwf (fun _ => ⟨',', _, rfl, by decide⟩) hcm
    have e1 : ElementToString x = BodyText x := by
      rw [ElementToString_eq, hxk]
      simp [FormatKey]
    have e2 : g + (ChildrenToString (x2 :: xs')).length + 1 + (BodyText x).length =
        g + (ChildrenToString (x :: x2 :: xs')).length := by
      simp [ChildrenToString, e1]
      omega
    rw [e2] at hb
    simpa [ChildrenToString, ItemsToks, e1, List.cons_append, List.append_assoc] using hb

end

/-- Re-running the constructor on the serialization of a successfully
constructed document yields the normalized tree. -/
theorem JSONConstruct_serialize {s : List Char} {root : JSONElement}
    (h : JSONConstruct s = .ok root) :
    JSONConstruct (ElementToString root) = .ok (NormalizeElement root) := by
  obtain ⟨tokens, rest0, hlex, hp, hobj⟩ := JSONConstruct_ok_inv h
  obtain ⟨hwf, hkey⟩ := JSONConstruct_ok_wf h
  obtain ⟨k, cs, rfl⟩ : ∃ k cs, root = .ObjectElement k cs := by
    cases root with
    | ObjectElement k cs => exact ⟨k, cs, rfl⟩
    | ArrayElement k xs => simp [JSONElement.IsObject] at hobj
    | StringElement k v => simp [JSONElement.IsObject] at hobj
    | NumberInt k n => simp [JSONElement.IsObject] at hobj
    | NumberDec k x p => simp [JSONElement.IsObject] at hobj
    | BoolElement k b => simp [JSONElement.IsObject] at hobj
    | NullElement k => simp [JSONElement.IsObject] at hobj
  simp only [JSONElement.key] at hkey
  subst hkey
  have hets : ElementToString (JSONElement.ObjectElement [] cs) =
      BodyText (JSONElement.ObjectElement [] cs) := by
    rw [ElementToString_eq]
    simp [FormatKey, JSONElement.key]
  have hlex2 : Lex (ElementToString (JSONElement.ObjectElement [] cs)) =
      .ok (BodyToks (JSONElement.ObjectElement [] cs)) := by
    rw [hets]
    unfold Lex
    have hb := lex_body (JSONElement.ObjectElement [] cs) [] 1 [] hwf
      (fun hbare => nomatch hbare) rfl
    simpa [Nat.add_comm] using hb
  have hparse := rt_parse (2 * (BodyToks (JSONElement.ObjectElement [] cs)).length + 2)
    true (JSONElement.ObjectElement [] cs) [] hwf (by omega)
  simp only [List.append_nil, JSONElement.key] at hparse
  unfold JSONConstruct
  rw [hlex2]
  simp only []
  rw [hparse]
  simp [NormalizeElement, JSONElement.IsObject]

/-- C1: for every input text whose construction succeeds, re-parsing the
serialization of the resulting tree succeeds and yields a tree whose
serialization is character-for-character the first serialization (the
re-parsed tree is the normalization of the original, which serializes
identically); and the claim's own scenario document parses successfully
and serializes back to exactly its input text. -/
theorem C1_serialize_reparse_fixed_point :
    (∀ s root root2, JSONConstruct s = .ok root →
        JSONConstruct (ElementToString root) = .ok root2 →
        ElementToString root2 = ElementToString root)
    ∧ (∀ s root, JSONConstruct s = .ok root →
        JSONConstruct (ElementToString root) = .ok (NormalizeElement root))
    ∧ (∃ root,
        JSONConstruct ("\x7b\"a\":1,\"b\":[1,2,3],\"c\":\x7b\"d\":true,\"e\":null\x7d,\"f\":\"hello\"\x7d".toList)
          = .ok root
        ∧ ElementToString root =
          "\x7b\"a\":1,\"b\":[1,2,3],\"c\":\x7b\"d\":true,\"e\":null\x7d,\"f\":\"hello\"\x7d".toList) := by
  refine ⟨fun s root root2 h h2 => ?_, fun s root h => JSONConstruct_serialize h,
    ⟨.ObjectElement []
      [.NumberInt ['a'] 1,
       .ArrayElement ['b'] [.NumberInt [] 1, .NumberInt [] 2, .NumberInt [] 3],
       .ObjectElement ['c'] [.BoolElement ['d'] true, .NullElement ['e']],
       .StringElement ['f'] ['h', 'e', 'l', 'l', 'o']], rfl, rfl⟩⟩
  have h3 := JSONConstruct_serialize h
  rw [h2] at h3
  injection h3 with h3
  rw [h3, ElementToString_normalize]

/-- Witness for `C1_serialize_reparse_fixed_point`: the document
`{"a":2}` parses, its serialization re-parses to the normalized tree, and
the round-tripped serialization is identical. -/
theorem C1_witness :
    JSONConstruct ("\x7b\"a\":2\x7d".toList) = .ok (.ObjectElement [] [.NumberInt ['a'] 2])
    ∧ JSONConstruct (ElementToString (.ObjectElement [] [.NumberInt ['a'] 2])) =
        .ok (NormalizeElement (.ObjectElement [] [.NumberInt ['a'] 2]))
    ∧ ElementToString (NormalizeElement (.ObjectElement [] [.NumberInt ['a'] 2])) =
        ElementToString (.ObjectElement [] [.NumberInt ['a'] 2]) :=
  ⟨rfl,
   C1_serialize_reparse_fixed_point.2.1 ("\x7b\"a\":2\x7d".toList)
     (.ObjectElement [] [.NumberInt ['a'] 2]) rfl,
   C1_serialize_reparse_fixed_point.1 ("\x7b\"a\":2\x7d".toList)
     (.ObjectElement [] [.NumberInt ['a'] 2])
     (NormalizeElement (.ObjectElement [] [.NumberInt ['a'] 2])) rfl
     (C1_serialize_reparse_fixed_point.2.1 ("\x7b\"a\":2\x7d".toList)
       (.ObjectElement [] [.NumberInt ['a'] 2]) rfl)⟩

end SSJ
